import Mathlib

/-!
Verification development for the hybrid audio synchronization engine
(`src/audio_sync.cpp` / `include/audio_sync.h`).

The C++ code is shallowly embedded: `float`/`double` arithmetic is modelled
by exact real arithmetic (`ℝ`), `size_t` by `ℕ`, `std::vector` by `List`,
and the IEEE infinity used to mark unreachable DTW cells by `WithTop ℝ`.
Loops that push one value per iteration are modelled as `List.map` over the
list of iteration indices.  Wall-clock timing fields and the diagnostic
per-frame confidence trace carried by `SyncResult` are irrelevant to every
property below and are omitted from the embedded record.  Decimal literals
of the source (`0.01f`, `1.1f`, ...) are read as the exact rationals they
denote.
-/

open Classical

noncomputable section

/-! ## Data model (audio_sync.h)

`AudioFeatures` carries the five feature series extracted from one mono PCM
buffer, plus the sample rate and the frame count; `SyncResult` is the output
of one alignment algorithm (or of the fused hybrid result). -/

structure AudioFeatures where
  mfcc : List ℝ
  spectralCentroid : List ℝ
  energy : List ℝ
  zcr : List ℝ
  onsets : List ℕ
  sampleRate : ℝ
  frameCount : ℕ

/-- Default-constructed `AudioFeatures()` : empty series, rate 0, 0 frames. -/
def AudioFeatures.empty : AudioFeatures :=
  ⟨[], [], [], [], [], 0, 0⟩

structure SyncResult where
  offset : ℝ
  confidence : ℝ
  algorithm : String

/-- Default-constructed `SyncResult()` : offset 0, confidence 0. -/
def SyncResult.default : SyncResult :=
  ⟨0, 0, ""⟩

inductive AudioContent where
  | SPEECH | MUSIC | MIXED | SILENCE | NOISE | UNKNOWN
deriving DecidableEq

/-! ## Generic helpers shared by several algorithms -/

/-- Value kept by `std::max_element` over a non-empty vector: the maximum. -/
def maxVal : List ℝ → ℝ
  | [] => 0
  | x :: xs => xs.foldl max x

/-- Index returned by `std::max_element`: the FIRST index attaining the
maximum (the running best is replaced only on strictly larger values). -/
def idxOfMaxAux : List ℝ → ℕ → ℝ → ℕ → ℕ
  | [], bi, _, _ => bi
  | x :: xs, bi, bv, i => if bv < x then idxOfMaxAux xs i x (i + 1) else idxOfMaxAux xs bi bv (i + 1)

def idxOfMax : List ℝ → ℕ
  | [] => 0
  | x :: xs => idxOfMaxAux xs 0 x 1

/-- Smallest power of two that is at least `n` : the
`while (fftSize < resultSize) fftSize <<= 1` loop starting from 1. -/
def nextPow2 (n : ℕ) : ℕ := 2 ^ Nat.clog 2 n

/-! ## Spectrum transform (fftw::FFTProcessor, audio_sync.cpp lines 76-130)

The transform of size `N` maps a real block of length `N` to the complex
half-spectrum of length `N/2 + 1` and back.  The embedding is the direct
DFT written in the source's FFTW-free branch: a sum of
`input[n] * (cos angle, sin angle)` terms; the inverse doubles every bin
except bin 0 and bin `N/2` to account for the missing negative
frequencies, takes the real part, and divides by `N`.  (The FFTW branch
computes the same transform.)  The size-mismatch `throw` of the source is a
caller-contract violation; the embedded theorems carry the matching length
hypotheses instead. -/

/-- Complex `(cos t, sin t)`, the unit phasor used by the direct DFT. -/
def cise (t : ℝ) : ℂ := ⟨Real.cos t, Real.sin t⟩

namespace FFTProcessor

def forward (N : ℕ) (x : List ℝ) : List ℂ :=
  (List.range (N / 2 + 1)).map (fun k : ℕ =>
    ∑ n ∈ Finset.range N, ((x.getD n 0 : ℝ) : ℂ) * cise (-(2 * Real.pi * k * n) / N))

def inverse (N : ℕ) (X : List ℂ) : List ℝ :=
  (List.range N).map (fun n : ℕ =>
    (∑ k ∈ Finset.range (N / 2 + 1),
      (if k = 0 ∨ k = N / 2 then X.getD k 0 else 2 * X.getD k 0) *
        cise (2 * Real.pi * k * n / N)).re / N)

/-- The bin-`k` value computed by `forward`, as a formula available for all
`k` (not only the stored bins `k ≤ N/2`); bins `k > N/2` are the conjugate
mirror bins of the underlying full spectrum. -/
def fullSpectrum (N : ℕ) (x : List ℝ) (k : ℕ) : ℂ :=
  ∑ n ∈ Finset.range N, ((x.getD n 0 : ℝ) : ℂ) * cise (-(2 * Real.pi * k * n) / N)

end FFTProcessor

/-! ## CrossCorrelationSync (audio_sync.cpp lines 195-325)

The energy envelopes are zero-padded to the next power of two at or above
`len1 + len2 - 1`, cross-correlated through the transform
(`forward`, multiply by conjugate, `inverse`), truncated to
`len1 + len2 - 1` points and normalized by the product of the L2 norms when
both are positive.  The `catch` fallback of the source only fires when the
transform throws a size mismatch, which cannot happen here because both
padded buffers are built with exactly `fftSize` samples, so the embedded
function is the `try` path. -/

namespace CrossCorrelationSync

def computeNormalizedCrossCorrelation (signal1 signal2 : List ℝ) : List ℝ :=
  let len1 := signal1.length
  let len2 := signal2.length
  let resultSize := len1 + len2 - 1
  let fftSize := nextPow2 resultSize
  let padded1 := signal1 ++ List.replicate (fftSize - len1) 0
  let padded2 := signal2 ++ List.replicate (fftSize - len2) 0
  let fft1 := FFTProcessor.forward fftSize padded1
  let fft2 := FFTProcessor.forward fftSize padded2
  let crossCorr := List.zipWith (fun a b => a * star b) fft1 fft2
  let result := FFTProcessor.inverse fftSize crossCorr
  let normalized := result.take resultSize
  let norm1 := Real.sqrt ((signal1.map (fun v => v * v)).sum)
  let norm2 := Real.sqrt ((signal2.map (fun v => v * v)).sum)
  if 0 < norm1 ∧ 0 < norm2 then normalized.map (fun v => v / (norm1 * norm2))
  else normalized

/-- `CrossCorrelationSync::synchronize`.  The `maxIt != end()` guard of the
source always holds (the correlation of non-empty envelopes is non-empty)
and is folded into the non-empty branch. -/
def synchronize (features1 features2 : AudioFeatures) : SyncResult :=
  let signal1 := features1.energy
  let signal2 := features2.energy
  if signal1 = [] ∨ signal2 = [] then
    { SyncResult.default with algorithm := "CrossCorrelation" }
  else
    let correlation := computeNormalizedCrossCorrelation signal1 signal2
    let maxIndex := idxOfMax correlation
    let maxValue := maxVal correlation
    let baseOffset := ((maxIndex : ℝ) - (signal1.length : ℝ)) / features1.sampleRate
    let baseConf := min 1 maxValue
    if 0 < maxIndex ∧ maxIndex < correlation.length - 1 then
      let y1 := correlation.getD (maxIndex - 1) 0
      let y2 := correlation.getD maxIndex 0
      let y3 := correlation.getD (maxIndex + 1) 0
      let a := (y1 - 2 * y2 + y3) / 2
      if 1 / 1000000 < |a| then
        { offset := baseOffset + (-(y3 - y1) / (4 * a)) / features1.sampleRate
          confidence := baseConf * 1.1
          algorithm := "CrossCorrelation" }
      else
        { offset := baseOffset, confidence := baseConf, algorithm := "CrossCorrelation" }
    else
      { offset := baseOffset, confidence := baseConf, algorithm := "CrossCorrelation" }

end CrossCorrelationSync

/-! ## DTWSync (audio_sync.cpp lines 342-519)

`computeDTWMatrix` fills a `len1 × len2` table: cell (0,0), then the whole
first row and first column cumulatively, then each interior row `i ≥ 1`
only on the slope band `j ∈ [max(1, ⌊i/2⌋), min(len2, 2i+1))`
(`slopeConstraint = 2.0`); every cell never written keeps the
`std::numeric_limits<float>::infinity()` it was initialized with, modelled
as `⊤` in `WithTop ℝ`.  Each cell is written once, reading only cells
finalized earlier, so the table is the fixpoint below. -/

namespace DTWSync

def dtwM (f1 f2 : List ℝ) : ℕ → ℕ → WithTop ℝ
  | 0, 0 => ((|f1.getD 0 0 - f2.getD 0 0| : ℝ) : WithTop ℝ)
  | i + 1, 0 => dtwM f1 f2 i 0 + ((|f1.getD (i + 1) 0 - f2.getD 0 0| : ℝ) : WithTop ℝ)
  | 0, j + 1 => dtwM f1 f2 0 j + ((|f1.getD 0 0 - f2.getD (j + 1) 0| : ℝ) : WithTop ℝ)
  | i + 1, j + 1 =>
    if (i + 1) / 2 ≤ j + 1 ∧ j + 1 < min f2.length (2 * (i + 1) + 1) then
      ((|f1.getD (i + 1) 0 - f2.getD (j + 1) 0| : ℝ) : WithTop ℝ) +
        min (dtwM f1 f2 i (j + 1)) (min (dtwM f1 f2 (i + 1) j) (dtwM f1 f2 i j))
    else ⊤
  termination_by i j => (i, j)

/-- `DTWSync::traceback` : walk from the bottom-right cell towards (0,0),
stepping to the predecessor of least accumulated cost with tie order
diagonal, then vertical, then horizontal; the source records each visited
cell, appends (0,0) and reverses the list. -/
def tracebackAux (M : ℕ → ℕ → WithTop ℝ) : ℕ → ℕ → List (ℕ × ℕ)
  | 0, 0 => []
  | 0, j + 1 => (0, j + 1) :: tracebackAux M 0 j
  | i + 1, 0 => (i + 1, 0) :: tracebackAux M i 0
  | i + 1, j + 1 =>
    (i + 1, j + 1) ::
      (if M i j ≤ M i (j + 1) ∧ M i j ≤ M (i + 1) j then tracebackAux M i j
       else if M i (j + 1) ≤ M (i + 1) j then tracebackAux M i (j + 1)
       else tracebackAux M (i + 1) j)
  termination_by i j => (i, j)

def tracebackPath (M : ℕ → ℕ → WithTop ℝ) (len1 len2 : ℕ) : List (ℕ × ℕ) :=
  (tracebackAux M (len1 - 1) (len2 - 1) ++ [(0, 0)]).reverse

/-- Every `scale`-th element, as pushed by `for (i = 0; i < size; i += scale)`. -/
def downsample (scale : ℕ) (l : List ℝ) : List ℝ :=
  (List.range ((l.length + scale - 1) / scale)).map (fun t => l.getD (t * scale) 0)

/-- One scale of `multiScaleDTW` : skip the scale if either downsampled
series is empty, otherwise blend the path's mean offset 50/50 into the
running estimate and raise the confidence to
`max(confidence, max(0, 1 - pathVariance/100))`. -/
def scaleUpdate (features1 features2 : AudioFeatures) (st : ℝ × ℝ) (scale : ℕ) : ℝ × ℝ :=
  let d1 := downsample scale features1.mfcc
  let d2 := downsample scale features2.mfcc
  if d1 = [] ∨ d2 = [] then st
  else
    let path := tracebackPath (dtwM d1 d2) d1.length d2.length
    if path = [] then st
    else
      let n : ℝ := path.length
      let sumOff : ℝ := (path.map (fun p => ((p.2 : ℝ) - (p.1 : ℝ)))).sum
      let scaleOffset : ℝ := sumOff / n * (scale : ℝ)
      let avgOffset : ℝ := scaleOffset / n
      let pathVar : ℝ :=
        ((path.map (fun p =>
          (((p.2 : ℝ) - (p.1 : ℝ)) - avgOffset) * (((p.2 : ℝ) - (p.1 : ℝ)) - avgOffset))).sum) / n
      ((st.1 + scaleOffset) / 2, max st.2 (max 0 (1 - pathVar / 100)))

def multiScaleDTW (features1 features2 : AudioFeatures) : SyncResult :=
  let st := [8, 4, 2, 1].foldl (scaleUpdate features1 features2) (0, 0)
  { offset := st.1 / features1.sampleRate * 512
    confidence := st.2
    algorithm := "DTW_MultiScale" }

/-- `DTWSync::synchronize` : the orchestrator's default-constructed
`DTWSync` has `useMultiScale = true`, so this is the multi-scale path. -/
def synchronize (features1 features2 : AudioFeatures) : SyncResult :=
  multiScaleDTW features1 features2

end DTWSync

/-! ## OnsetSync (audio_sync.cpp lines 536-612)

Onset positions are `size_t` sample indices; all arithmetic performed on
them by `alignOnsets` (`double` differences of integers, the
`1000.0`-sample tolerance test, the match count) is exact, so it is
embedded over `ℤ`/`ℕ` and the final offset is cast to `ℝ` where
`synchronize` stores it in the `SyncResult`. -/

namespace OnsetSync

/-- Number of onsets of side 1 that, shifted by `off`, land within the fixed
1000-sample tolerance (about 23 ms at 44.1 kHz) of some onset of side 2. -/
def matchScore (onsets1 onsets2 : List ℕ) (off : ℤ) : ℕ :=
  ((List.range onsets1.length).filter (fun k =>
    decide (∃ l < onsets2.length,
      |(onsets2.getD l 0 : ℤ) - ((onsets1.getD k 0 : ℤ) + off)| < 1000))).length

/-- Candidate shifts tried by the double loop of `alignOnsets`, in iteration
order: `onsets2[j] - onsets1[i]` for the first 5 onsets on each side. -/
def candidates (onsets1 onsets2 : List ℕ) : List ℤ :=
  (List.range (min onsets1.length 5)).flatMap (fun i =>
    (List.range (min onsets2.length 5)).map (fun j =>
      (onsets2.getD j 0 : ℤ) - (onsets1.getD i 0 : ℤ)))

/-- One step of the best-candidate scan: replace the running best only on a
strictly larger score (`score > bestScore`), so the first-found candidate
wins ties. -/
def bestStep (score : ℤ → ℕ) (b : ℤ × ℕ) (c : ℤ) : ℤ × ℕ :=
  if b.2 < score c then (c, score c) else b

def bestPair (score : ℤ → ℕ) (l : List ℤ) (b : ℤ × ℕ) : ℤ × ℕ :=
  l.foldl (bestStep score) b

/-- `alignOnsets` : exhaustive scan of the candidate shifts, keeping the one
with the highest match count (initial best: offset 0, score 0). -/
def alignOnsets (onsets1 onsets2 : List ℕ) : ℤ :=
  if onsets1 = [] ∨ onsets2 = [] then 0
  else (bestPair (matchScore onsets1 onsets2) (candidates onsets1 onsets2) (0, 0)).1

/-- `OnsetSync::synchronize` : requires at least 3 onsets on each side,
confidence `min(1, min(count1,count2)/10)`, offset from `alignOnsets`. -/
def synchronize (features1 features2 : AudioFeatures) : SyncResult :=
  let onsets1 := features1.onsets
  let onsets2 := features2.onsets
  if onsets1.length < 3 ∨ onsets2.length < 3 then
    { SyncResult.default with algorithm := "OnsetBased" }
  else
    { offset := ((alignOnsets onsets1 onsets2 : ℤ) : ℝ)
      confidence := min 1 ((min onsets1.length onsets2.length : ℕ) / 10 : ℝ)
      algorithm := "OnsetBased" }

/-- Specification-side maximal match score over the candidate list. -/
def maxScore (score : ℤ → ℕ) (l : List ℤ) : ℕ :=
  (l.map score).foldr max 0

/-- Specification-side winner, written the way the claim states it: the
first candidate in iteration order achieving the maximal score. -/
def firstWinner (score : ℤ → ℕ) (l : List ℤ) : ℤ :=
  (l.find? (fun c => score c = maxScore score l)).getD 0

end OnsetSync

/-! ## SpectralCorrelationSync (audio_sync.cpp lines 618-675)

Exhaustive scan of integer lags `[-maxLag, maxLag]` over the two
spectral-centroid series, scoring each lag by the mean product of the
overlapping samples; strict improvement keeps the first-found best lag. -/

namespace SpectralCorrelationSync

/-- Sum of products over the overlap at `lag`, and the overlap size. -/
def lagCorr (c1 c2 : List ℝ) (lag : ℤ) : ℝ × ℕ :=
  let s := (Finset.range c1.length).filter
    (fun i => 0 ≤ Int.ofNat i + lag ∧ Int.ofNat i + lag < (c2.length : ℤ))
  (∑ i ∈ s, c1.getD i 0 * c2.getD (Int.ofNat i + lag).toNat 0, s.card)

/-- Lags `-maxLag, ..., maxLag` in iteration order. -/
def lagList (maxLag : ℕ) : List ℤ :=
  (List.range (2 * maxLag + 1)).map (fun t : ℕ => (t : ℤ) - (maxLag : ℤ))

def lagStep (c1 c2 : List ℝ) (b : ℝ × ℤ) (lag : ℤ) : ℝ × ℤ :=
  let p := lagCorr c1 c2 lag
  if 0 < p.2 then
    if b.1 < p.1 / (p.2 : ℝ) then (p.1 / (p.2 : ℝ), lag) else b
  else b

def synchronize (features1 features2 : AudioFeatures) : SyncResult :=
  let c1 := features1.spectralCentroid
  let c2 := features2.spectralCentroid
  if c1 = [] ∨ c2 = [] then
    { SyncResult.default with algorithm := "SpectralCorrelation" }
  else
    let maxLag := min c1.length c2.length / 2
    let best := (lagList maxLag).foldl (lagStep c1 c2) (-1, 0)
    { offset := (best.2 : ℝ) * 512 / features1.sampleRate
      confidence := max 0 best.1
      algorithm := "SpectralCorrelation" }

end SpectralCorrelationSync

/-! ## HybridAudioSync (audio_sync.cpp lines 692-1107)

Feature extraction is embedded from the decoded sample buffer on: the
external `ffmpeg` decode of `loadAudioSamples` always delivers mono floats
at 44100 Hz, so `findOptimalSync` below consumes two sample buffers
directly.  For non-empty buffers shorter than one analysis frame (2048
samples) the source's `extractMFCC`/`extractSpectralCentroid` underflow
`audio.size() - MFCC_FRAME_SIZE` in `size_t` and read past the buffer
(undefined behavior); the embedding uses truncated `ℕ` subtraction there
and reads zeros past the end. -/

namespace HybridAudioSync

def extractMFCC (samples : List ℝ) : List ℝ :=
  (List.range ((samples.length - 2048) / 512 + 1)).map (fun frame =>
    let centroid := ∑ i ∈ Finset.range 2048, (i : ℝ) * |samples.getD (frame * 512 + i) 0|
    let total := ∑ i ∈ Finset.range 2048, |samples.getD (frame * 512 + i) 0|
    if 0 < total then centroid / total else centroid)

def extractSpectralCentroid (samples : List ℝ) (sampleRate : ℝ) : List ℝ :=
  (List.range ((samples.length - 2048) / 512 + 1)).map (fun frame =>
    let idx := (Finset.range 2048).filter (fun i => frame * 512 + i < samples.length)
    let sq := fun i => samples.getD (frame * 512 + i) 0 * samples.getD (frame * 512 + i) 0
    let centroid := ∑ i ∈ idx, (i : ℝ) * sq i
    let total := ∑ i ∈ idx, sq i
    if 0 < total then centroid / total * (sampleRate / 2) / 2048 else centroid)

/-- Mean squared sample per 20 ms window (`detectOnsets` energy envelope).
A window size of 0 makes the source's `i += windowSize` loop spin forever;
the callers always pass `sampleRate = 44100`, giving window size 882. -/
def onsetWindows (samples : List ℝ) (w : ℕ) : List ℝ :=
  (List.range (if w = 0 then 0 else (samples.length + w - 1) / w)).map (fun c =>
    let endIdx := min ((c + 1) * w) samples.length
    (∑ j ∈ Finset.Ico (c * w) endIdx, samples.getD j 0 * samples.getD j 0) /
      ((endIdx - c * w : ℕ) : ℝ))

/-- Onsets: windows that are strict local maxima of the 20 ms energy
envelope above the fixed `0.1` threshold, reported as sample offsets. -/
def detectOnsets (samples : List ℝ) (sampleRate : ℝ) : List ℕ :=
  let w := ⌊sampleRate * (2 / 100)⌋₊
  let energy := onsetWindows samples w
  ((List.range energy.length).filter (fun i =>
    decide (1 ≤ i ∧ i + 1 < energy.length ∧
      (1 : ℝ) / 10 < energy.getD i 0 ∧
      energy.getD (i - 1) 0 < energy.getD i 0 ∧
      energy.getD (i + 1) 0 < energy.getD i 0))).map (fun i => i * w)

/-- RMS per hop-sized chunk (`for (i = 0; i < size; i += MFCC_HOP_SIZE)`). -/
def energySeries (samples : List ℝ) : List ℝ :=
  (List.range ((samples.length + 511) / 512)).map (fun c =>
    let endIdx := min ((c + 1) * 512) samples.length
    Real.sqrt ((∑ j ∈ Finset.Ico (c * 512) endIdx, samples.getD j 0 * samples.getD j 0) /
      ((endIdx - c * 512 : ℕ) : ℝ)))

/-- Zero-crossing fraction per hop-sized chunk. -/
def zcrSeries (samples : List ℝ) : List ℝ :=
  (List.range ((samples.length + 511) / 512)).map (fun c =>
    let endIdx := min ((c + 1) * 512) samples.length
    let crossings := ((Finset.Ico (c * 512 + 1) endIdx).filter (fun j =>
      ¬((0 ≤ samples.getD j 0) ↔ (0 ≤ samples.getD (j - 1) 0)))).card
    (crossings : ℝ) / ((endIdx - c * 512 : ℕ) : ℝ))

/-- `HybridAudioSync::extractFeatures` from the decoded buffer on: an empty
buffer yields the default-constructed bundle (`frameCount == 0`). -/
def extractFeatures (samples : List ℝ) (sampleRate : ℝ) : AudioFeatures :=
  if samples = [] then AudioFeatures.empty
  else
    { mfcc := extractMFCC samples
      spectralCentroid := extractSpectralCentroid samples sampleRate
      energy := energySeries samples
      zcr := zcrSeries samples
      onsets := detectOnsets samples sampleRate
      sampleRate := sampleRate
      frameCount := samples.length / 512 }

def avgEnergy (features : AudioFeatures) : ℝ :=
  features.energy.sum / (features.energy.length : ℝ)

def maxEnergy (features : AudioFeatures) : ℝ :=
  maxVal features.energy

def avgZCR (features : AudioFeatures) : ℝ :=
  if features.zcr = [] then 0 else features.zcr.sum / (features.zcr.length : ℝ)

/-- `HybridAudioSync::detectContentType` : the source checks only
`features.energy.empty()` before computing the statistics. -/
def detectContentType (features : AudioFeatures) : AudioContent :=
  if features.energy = [] then AudioContent.UNKNOWN
  else if avgEnergy features < 0.01 ∧ maxEnergy features < 0.05 then AudioContent.SILENCE
  else if 0.1 < avgZCR features ∧ avgZCR features < 0.3 ∧ features.onsets.length < 20 then
    AudioContent.SPEECH
  else if avgZCR features < 0.15 ∧ 15 < features.onsets.length then AudioContent.MUSIC
  else if 0.4 < avgZCR features then AudioContent.NOISE
  else AudioContent.MIXED

/-- First-match evaluation of an ordered rule list (default: MIXED). -/
def firstRule : List (Prop × AudioContent) → AudioContent
  | [] => AudioContent.MIXED
  | (p, c) :: rest => if p then c else firstRule rest

/-- The classifier's decision rules exactly as the claim states them,
including the `frameCount == 0` test of rule 1. -/
def claimedContentRules (f : AudioFeatures) : List (Prop × AudioContent) :=
  [(f.frameCount = 0 ∨ f.energy = [], AudioContent.UNKNOWN),
   (avgEnergy f < 0.01 ∧ maxEnergy f < 0.05, AudioContent.SILENCE),
   (0.1 < avgZCR f ∧ avgZCR f < 0.3 ∧ f.onsets.length < 20, AudioContent.SPEECH),
   (avgZCR f < 0.15 ∧ 15 < f.onsets.length, AudioContent.MUSIC),
   (0.4 < avgZCR f, AudioContent.NOISE)]

/-- The same rules with rule 1 reduced to what the source tests: only
`energy` emptiness (`frameCount` is never consulted). -/
def amendedContentRules (f : AudioFeatures) : List (Prop × AudioContent) :=
  [(f.energy = [], AudioContent.UNKNOWN),
   (avgEnergy f < 0.01 ∧ maxEnergy f < 0.05, AudioContent.SILENCE),
   (0.1 < avgZCR f ∧ avgZCR f < 0.3 ∧ f.onsets.length < 20, AudioContent.SPEECH),
   (avgZCR f < 0.15 ∧ 15 < f.onsets.length, AudioContent.MUSIC),
   (0.4 < avgZCR f, AudioContent.NOISE)]

/-- `initializeAlgorithmWeights` table, looked up by algorithm index in the
order CrossCorrelation, DTW, Onset, Spectral (a scan over the stored
pairs; indices other than 0-3 find no pair and give weight 0). -/
def weightFor (content : AudioContent) (i : ℕ) : ℝ :=
  match content with
  | AudioContent.SPEECH =>
    if i = 0 then 0.4 else if i = 1 then 0.4 else if i = 2 then 0.1 else if i = 3 then 0.1 else 0
  | AudioContent.MUSIC =>
    if i = 0 then 0.2 else if i = 1 then 0.3 else if i = 2 then 0.3 else if i = 3 then 0.2 else 0
  | AudioContent.MIXED =>
    if i = 0 then 0.3 else if i = 1 then 0.3 else if i = 2 then 0.2 else if i = 3 then 0.2 else 0
  | AudioContent.SILENCE =>
    if i = 0 then 0.7 else if i = 1 then 0.2 else if i = 2 then 0.05 else if i = 3 then 0.05 else 0
  | AudioContent.NOISE =>
    if i = 0 then 0.5 else if i = 1 then 0.3 else if i = 2 then 0.1 else if i = 3 then 0.1 else 0
  | AudioContent.UNKNOWN =>
    if i = 0 then 0.35 else if i = 1 then 0.35 else if i = 2 then 0.15 else if i = 3 then 0.15 else 0

/-- `HybridAudioSync::combineResults` : weighted fusion with effective
weight `tableWeight * thatResultsConfidence`; if the accumulated total is
not strictly positive the default-constructed result is kept. -/
def combineResults (results : List SyncResult) (weights : List ℝ) : SyncResult :=
  if results = [] ∨ weights = [] then { SyncResult.default with algorithm := "Hybrid" }
  else
    let pairs := results.zip weights
    let totalWeight := (pairs.map (fun p => p.2 * p.1.confidence)).sum
    let weightedOffset := (pairs.map (fun p => p.1.offset * (p.2 * p.1.confidence))).sum
    let weightedConfidence := (pairs.map (fun p => p.1.confidence * (p.2 * p.1.confidence))).sum
    if 0 < totalWeight then
      { offset := weightedOffset / totalWeight
        confidence := weightedConfidence / totalWeight
        algorithm := "Hybrid" }
    else { SyncResult.default with algorithm := "Hybrid" }

/-- `HybridAudioSync::computeConfidenceScore` : feature-quality boosts, the
large-offset penalty, and the upper clamp `std::min(1.0f, confidence)`. -/
def computeConfidenceScore (result : SyncResult) (features1 features2 : AudioFeatures) : ℝ :=
  let c1 := result.confidence
  let c2 := if features1.mfcc ≠ [] ∧ features2.mfcc ≠ [] then c1 * 1.1 else c1
  let c3 := if 5 < features1.onsets.length ∧ 5 < features2.onsets.length then c2 * 1.05 else c2
  let c4 := if 10 < |result.offset| then c3 * 0.8 else c3
  min 1 c4

/-- The four algorithm results in the orchestrator's fixed order. -/
def hybridResults (features1 features2 : AudioFeatures) : List SyncResult :=
  [CrossCorrelationSync.synchronize features1 features2,
   DTWSync.synchronize features1 features2,
   OnsetSync.synchronize features1 features2,
   SpectralCorrelationSync.synchronize features1 features2]

def hybridWeights (content : AudioContent) : List ℝ :=
  [weightFor content 0, weightFor content 1, weightFor content 2, weightFor content 3]

/-- `HybridAudioSync::findOptimalSync` from the decoded buffers on
(decode always resamples to 44100 Hz): extract features, return the
default result if either bundle has no frames, otherwise classify, run the
four algorithms, fuse, flip the sign of the fused offset and recompute the
final confidence. -/
def findOptimalSync (samples1 samples2 : List ℝ) : SyncResult :=
  let features1 := extractFeatures samples1 44100
  let features2 := extractFeatures samples2 44100
  if features1.frameCount = 0 ∨ features2.frameCount = 0 then SyncResult.default
  else
    let content := detectContentType features1
    let combined := combineResults (hybridResults features1 features2) (hybridWeights content)
    let negated : SyncResult := { combined with offset := -combined.offset }
    { negated with confidence := computeConfidenceScore negated features1 features2 }

end HybridAudioSync

end

/-! ## Helper lemmas -/

theorem maxVal_mem : ∀ (l : List ℝ), l ≠ [] → maxVal l ∈ l := by
  intro l hl
  match l with
  | x :: xs =>
    show xs.foldl max x ∈ x :: xs
    clear hl
    induction xs generalizing x with
    | nil => simp [List.foldl]
    | cons y ys ih =>
      have h := ih (max x y)
      rcases List.mem_cons.mp h with h1 | h1
      · rcases le_total x y with hxy | hxy
        · have : List.foldl max (max x y) ys = y := by rw [h1, max_eq_right hxy]
          simp [List.foldl, this]
        · have : List.foldl max (max x y) ys = x := by rw [h1, max_eq_left hxy]
          simp [List.foldl, this]
      · simp [List.foldl]
        right; right; exact h1

theorem maxVal_nonneg (l : List ℝ) (hne : l ≠ []) (h : ∀ x ∈ l, 0 ≤ x) :
    0 ≤ maxVal l :=
  h _ (maxVal_mem l hne)

namespace OnsetSync

theorem maxScore_cons (score : ℤ → ℕ) (c : ℤ) (cs : List ℤ) :
    maxScore score (c :: cs) = max (score c) (maxScore score cs) := by
  simp [maxScore]

theorem bestPair_cons (score : ℤ → ℕ) (c : ℤ) (cs : List ℤ) (b : ℤ × ℕ) :
    bestPair score (c :: cs) b = bestPair score cs (bestStep score b c) := rfl

theorem bestPair_snd (score : ℤ → ℕ) (l : List ℤ) (b : ℤ × ℕ) :
    (bestPair score l b).2 = max b.2 (maxScore score l) := by
  induction l generalizing b with
  | nil => simp [bestPair, maxScore]
  | cons c cs ih =>
    rw [bestPair_cons, ih, maxScore_cons]
    unfold bestStep
    rcases le_or_lt (score c) b.2 with h | h
    · rw [if_neg (by omega)]
      omega
    · rw [if_pos h]
      simp only
      omega

theorem bestPair_stale (score : ℤ → ℕ) (l : List ℤ) (b : ℤ × ℕ)
    (h : maxScore score l ≤ b.2) : bestPair score l b = b := by
  induction l generalizing b with
  | nil => simp [bestPair]
  | cons c cs ih =>
    rw [maxScore_cons] at h
    have hc : ¬ b.2 < score c := by omega
    rw [bestPair_cons]
    unfold bestStep
    rw [if_neg hc]
    exact ih b (by omega)

theorem bestPair_firstWinner (score : ℤ → ℕ) (l : List ℤ) (b : ℤ × ℕ)
    (h : b.2 < maxScore score l) :
    (bestPair score l b).1 = firstWinner score l := by
  induction l generalizing b with
  | nil => simp [maxScore] at h
  | cons c cs ih =>
    have hsplit : maxScore score (c :: cs) = max (score c) (maxScore score cs) :=
      maxScore_cons score c cs
    by_cases hc : score c = maxScore score (c :: cs)
    · have hupd : b.2 < score c := by rw [hc]; exact h
      rw [bestPair_cons]
      unfold bestStep
      rw [if_pos hupd]
      have hrest : maxScore score cs ≤ score c := by
        rw [hsplit] at hc; omega
      rw [bestPair_stale score cs (c, score c) hrest]
      simp [firstWinner, List.find?, hc]
    · have hc2 : score c < maxScore score (c :: cs) := by
        rw [hsplit] at hc ⊢; omega
      have heq : maxScore score (c :: cs) = maxScore score cs := by
        rw [hsplit] at hc ⊢; omega
      have hfw : firstWinner score (c :: cs) = firstWinner score cs := by
        simp only [firstWinner, List.find?]
        rw [decide_eq_false hc]
        simp [heq]
      rw [hfw]
      rw [bestPair_cons]
      unfold bestStep
      by_cases hb : b.2 < score c
      · rw [if_pos hb]
        exact ih (c, score c) (by rw [← heq]; exact hc2)
      · rw [if_neg hb]
        exact ih b (by rw [← heq]; exact h)

end OnsetSync

/-! ## Claim C9 : content classifier decision tree -/

namespace HybridAudioSync

/-- Claim C9 as stated, evaluated at a concrete bundle with
`frameCount = 0` but a non-empty energy series: the claimed rule list
returns UNKNOWN by rule 1, while the classifier of the source never
consults `frameCount` and classifies this bundle as NOISE. -/
theorem spec_C9_cex :
    detectContentType ⟨[], [], [1], [1 / 2], [], 44100, 0⟩ = AudioContent.NOISE ∧
    (⟨[], [], [1], [1 / 2], [], 44100, 0⟩ : AudioFeatures).frameCount = 0 ∧
    firstRule (claimedContentRules ⟨[], [], [1], [1 / 2], [], 44100, 0⟩) =
      AudioContent.UNKNOWN := by
  refine ⟨?_, rfl, ?_⟩
  · unfold detectContentType
    rw [if_neg (by simp)]
    rw [if_neg (by unfold avgEnergy; norm_num)]
    rw [if_neg (by unfold avgZCR; norm_num)]
    rw [if_neg (by unfold avgZCR; norm_num)]
    rw [if_pos (by unfold avgZCR; norm_num)]
  · unfold claimedContentRules firstRule
    rw [if_pos (Or.inl rfl)]

/-- Claim C9, amended: the classifier is exactly the first-match evaluation
of the six ordered rules, with rule 1 testing only emptiness of the energy
series (the source never consults `frameCount`); rules 2-6 are as claimed. -/
theorem spec_C9 (f : AudioFeatures) :
    detectContentType f = firstRule (amendedContentRules f) := by
  unfold detectContentType amendedContentRules
  simp only [firstRule]

end HybridAudioSync

/-! ## Claim C7 : feature series lengths -/

namespace HybridAudioSync

/-- A `List.replicate` of positive length is non-empty (stated for `ℝ`
entries, used by concrete instantiations below). -/
theorem replicate_real_ne_nil (n : ℕ) (hn : n ≠ 0) (x : ℝ) : List.replicate n x ≠ [] := by
  intro h
  have h2 := congrArg List.length h
  rw [List.length_replicate] at h2
  exact hn h2

/-- Claim C7 as stated fails: for the 2500-sample buffer of ones the energy
series has `⌈2500/512⌉ = 5` entries (the extraction loop advances in hops of
512 and also emits the final partial chunk) while
`frameCount = ⌊2500/512⌋ = 4`. -/
theorem spec_C7_cex :
    (extractFeatures (List.replicate 2500 (1 : ℝ)) 44100).energy.length = 5 ∧
    (extractFeatures (List.replicate 2500 (1 : ℝ)) 44100).frameCount = 4 := by
  unfold extractFeatures
  rw [if_neg (replicate_real_ne_nil 2500 (by norm_num) 1)]
  unfold energySeries
  simp only [List.length_map, List.length_range, List.length_replicate]
  norm_num

/-- Claim C7, amended: for a non-empty buffer the energy and zcr series have
the same length, namely `⌈bufferLength/512⌉` chunks, while
`frameCount = ⌊bufferLength/512⌋`; the three agree exactly when the hop
size 512 divides the buffer length. -/
theorem spec_C7 (samples : List ℝ) (sampleRate : ℝ) (hne : samples ≠ []) :
    (extractFeatures samples sampleRate).energy.length =
      (extractFeatures samples sampleRate).zcr.length ∧
    (extractFeatures samples sampleRate).energy.length = (samples.length + 511) / 512 ∧
    (extractFeatures samples sampleRate).frameCount = samples.length / 512 ∧
    (512 ∣ samples.length →
      (extractFeatures samples sampleRate).energy.length =
        (extractFeatures samples sampleRate).frameCount) := by
  unfold extractFeatures
  rw [if_neg hne]
  unfold energySeries zcrSeries
  refine ⟨by simp, by simp, rfl, ?_⟩
  intro hdvd
  simp only [List.length_map, List.length_range]
  omega

/-- Witness for `spec_C7` : a 2048-sample buffer (a multiple of the hop
size), on which all three lengths agree at 4. -/
theorem spec_C7_witness :
    List.replicate 2048 (1 : ℝ) ≠ [] ∧
    (extractFeatures (List.replicate 2048 (1 : ℝ)) 44100).energy.length =
      (extractFeatures (List.replicate 2048 (1 : ℝ)) 44100).zcr.length ∧
    (extractFeatures (List.replicate 2048 (1 : ℝ)) 44100).energy.length =
      (extractFeatures (List.replicate 2048 (1 : ℝ)) 44100).frameCount := by
  have hne : List.replicate 2048 (1 : ℝ) ≠ [] := replicate_real_ne_nil 2048 (by norm_num) 1
  have h := spec_C7 (List.replicate 2048 (1 : ℝ)) 44100 hne
  exact ⟨hne, h.1, h.2.2.2 (by rw [List.length_replicate]; norm_num)⟩

end HybridAudioSync

/-! ## Claim C3 : empty-feature early return -/

namespace HybridAudioSync

/-- Claim C3 : when either extracted bundle has `frameCount == 0` (in
particular for an empty decoded buffer) `findOptimalSync` returns the
default-constructed `SyncResult` — confidence 0, offset 0 — taken before
any alignment algorithm is invoked; the embedded function is total, so no
exception is possible. -/
theorem spec_C3 (samples1 samples2 : List ℝ)
    (h : (extractFeatures samples1 44100).frameCount = 0 ∨
         (extractFeatures samples2 44100).frameCount = 0) :
    findOptimalSync samples1 samples2 = SyncResult.default ∧
    (findOptimalSync samples1 samples2).confidence = 0 := by
  unfold findOptimalSync
  rw [if_pos h]
  exact ⟨rfl, rfl⟩

/-- Witness for `spec_C3` : the empty buffer pair. -/
theorem spec_C3_witness :
    (extractFeatures ([] : List ℝ) 44100).frameCount = 0 ∧
    findOptimalSync [] [] = SyncResult.default := by
  have h : (extractFeatures ([] : List ℝ) 44100).frameCount = 0 := by
    unfold extractFeatures
    rw [if_pos rfl]
    rfl
  exact ⟨h, (spec_C3 [] [] (Or.inl h)).1⟩

end HybridAudioSync

/-! ## Claims C8 and C10 : OnsetSync -/

namespace OnsetSync

theorem le_maxScore (score : ℤ → ℕ) (l : List ℤ) (c : ℤ) (hc : c ∈ l) :
    score c ≤ maxScore score l := by
  induction l with
  | nil => cases hc
  | cons a as ih =>
    rw [maxScore_cons]
    rcases List.mem_cons.mp hc with h | h
    · rw [h]; exact le_max_left _ _
    · exact le_trans (ih h) (le_max_right _ _)

theorem maxScore_attained (score : ℤ → ℕ) (l : List ℤ) (h : 0 < maxScore score l) :
    ∃ c ∈ l, score c = maxScore score l := by
  induction l with
  | nil => simp [maxScore] at h
  | cons a as ih =>
    rw [maxScore_cons] at h ⊢
    rcases le_total (maxScore score as) (score a) with hle | hle
    · exact ⟨a, List.mem_cons_self a as, (max_eq_left hle).symm⟩
    · rw [max_eq_right hle] at h ⊢
      obtain ⟨c, hc, hsc⟩ := ih h
      exact ⟨c, List.mem_cons_of_mem a hc, hsc⟩

theorem firstWinner_spec (score : ℤ → ℕ) (l : List ℤ) (h : 0 < maxScore score l) :
    firstWinner score l ∈ l ∧ score (firstWinner score l) = maxScore score l := by
  obtain ⟨c, hc, hsc⟩ := maxScore_attained score l h
  have hex : ∃ x ∈ l, (fun c => decide (score c = maxScore score l)) x = true := by
    exact ⟨c, hc, by simp [hsc]⟩
  obtain ⟨w, hw⟩ := Option.isSome_iff_exists.mp (List.find?_isSome.mpr hex)
  have hmem := List.mem_of_find?_eq_some hw
  have hpred := List.find?_some hw
  constructor
  · simpa [firstWinner, hw] using hmem
  · have : score w = maxScore score l := by simpa using hpred
    simpa [firstWinner, hw] using this

theorem mem_candidates (onsets1 onsets2 : List ℕ) (i j : ℕ)
    (hi : i < min onsets1.length 5) (hj : j < min onsets2.length 5) :
    (onsets2.getD j 0 : ℤ) - (onsets1.getD i 0 : ℤ) ∈ candidates onsets1 onsets2 := by
  unfold candidates
  rw [List.mem_flatMap]
  exact ⟨i, List.mem_range.mpr hi, List.mem_map.mpr ⟨j, List.mem_range.mpr hj, rfl⟩⟩

theorem candidates_mem_iff (onsets1 onsets2 : List ℕ) (c : ℤ)
    (hc : c ∈ candidates onsets1 onsets2) :
    ∃ i j, i < min onsets1.length 5 ∧ j < min onsets2.length 5 ∧
      c = (onsets2.getD j 0 : ℤ) - (onsets1.getD i 0 : ℤ) := by
  unfold candidates at hc
  rw [List.mem_flatMap] at hc
  obtain ⟨i, hi, hmap⟩ := hc
  obtain ⟨j, hj, hcj⟩ := List.mem_map.mp hmap
  exact ⟨i, j, List.mem_range.mp hi, List.mem_range.mp hj, hcj.symm⟩

/-- A candidate shift built from onsets `i` and `j` matches at least onset
`i` itself (it lands exactly on onset `j` of the other side). -/
theorem matchScore_candidate_pos (onsets1 onsets2 : List ℕ) (i j : ℕ)
    (hi : i < onsets1.length) (hj : j < onsets2.length) :
    0 < matchScore onsets1 onsets2 ((onsets2.getD j 0 : ℤ) - (onsets1.getD i 0 : ℤ)) := by
  unfold matchScore
  apply List.length_pos_of_mem (a := i)
  rw [List.mem_filter]
  refine ⟨List.mem_range.mpr hi, ?_⟩
  rw [decide_eq_true_eq]
  exact ⟨j, hj, by ring_nf; simp⟩

theorem maxScore_candidates_pos (onsets1 onsets2 : List ℕ)
    (h1 : 0 < onsets1.length) (h2 : 0 < onsets2.length) :
    0 < maxScore (matchScore onsets1 onsets2) (candidates onsets1 onsets2) := by
  have hmem := mem_candidates onsets1 onsets2 0 0 (by omega) (by omega)
  have hpos := matchScore_candidate_pos onsets1 onsets2 0 0 h1 h2
  have hle := le_maxScore (matchScore onsets1 onsets2) (candidates onsets1 onsets2) _ hmem
  omega

/-- `alignOnsets` computes the specification-side first maximal candidate. -/
theorem alignOnsets_eq_firstWinner (onsets1 onsets2 : List ℕ)
    (h1 : 0 < onsets1.length) (h2 : 0 < onsets2.length) :
    alignOnsets onsets1 onsets2 =
      firstWinner (matchScore onsets1 onsets2) (candidates onsets1 onsets2) := by
  unfold alignOnsets
  rw [if_neg (by
    rintro (h | h)
    · rw [h] at h1; simp at h1
    · rw [h] at h2; simp at h2)]
  exact bestPair_firstWinner _ _ _
    (by simpa using maxScore_candidates_pos onsets1 onsets2 h1 h2)

end OnsetSync

/-- Claim C8 : OnsetSync returns confidence 0 when either onset set has
fewer than 3 elements; otherwise its confidence is
`min(count1, count2)/10` capped at 1, and its offset is the candidate shift
(taken from the first 5 onsets on each side) that matches the most onsets
within the fixed 1000-sample tolerance, the first-found candidate winning
ties (`firstWinner` picks the first candidate in iteration order achieving
the maximal match score). -/
theorem spec_C8 (features1 features2 : AudioFeatures) :
    ((features1.onsets.length < 3 ∨ features2.onsets.length < 3) →
      (OnsetSync.synchronize features1 features2).confidence = 0) ∧
    (3 ≤ features1.onsets.length → 3 ≤ features2.onsets.length →
      (OnsetSync.synchronize features1 features2).confidence =
        min 1 ((min features1.onsets.length features2.onsets.length : ℕ) / 10 : ℝ) ∧
      (OnsetSync.synchronize features1 features2).offset =
        ((OnsetSync.firstWinner (OnsetSync.matchScore features1.onsets features2.onsets)
          (OnsetSync.candidates features1.onsets features2.onsets) : ℤ) : ℝ)) := by
  constructor
  · intro h
    unfold OnsetSync.synchronize
    rw [if_pos h]
    rfl
  · intro h1 h2
    unfold OnsetSync.synchronize
    rw [if_neg (by omega)]
    refine ⟨rfl, ?_⟩
    simp only
    rw [OnsetSync.alignOnsets_eq_firstWinner features1.onsets features2.onsets
      (by omega) (by omega)]

/-- Witness for `spec_C8` : the low-onset branch at a bundle with 2 onsets,
and the main branch at bundles with exactly 3 onsets each. -/
theorem spec_C8_witness :
    ((⟨[], [], [], [], [0, 2000], 44100, 0⟩ : AudioFeatures).onsets.length < 3 ∨
      (⟨[], [], [], [], [5000], 44100, 0⟩ : AudioFeatures).onsets.length < 3) ∧
    (OnsetSync.synchronize ⟨[], [], [], [], [0, 2000], 44100, 0⟩
      ⟨[], [], [], [], [5000], 44100, 0⟩).confidence = 0 ∧
    (OnsetSync.synchronize ⟨[], [], [], [], [0, 2000, 4000], 44100, 0⟩
        ⟨[], [], [], [], [1000, 3000, 5000], 44100, 0⟩).confidence =
      min 1 ((min (3 : ℕ) 3 : ℕ) / 10 : ℝ) := by
  have ha : ((⟨[], [], [], [], [0, 2000], 44100, 0⟩ : AudioFeatures).onsets.length < 3 ∨
      (⟨[], [], [], [], [5000], 44100, 0⟩ : AudioFeatures).onsets.length < 3) := by
    left; simp
  have hb := (spec_C8 ⟨[], [], [], [], [0, 2000], 44100, 0⟩
    ⟨[], [], [], [], [5000], 44100, 0⟩).1 ha
  have hc := ((spec_C8 ⟨[], [], [], [], [0, 2000, 4000], 44100, 0⟩
    ⟨[], [], [], [], [1000, 3000, 5000], 44100, 0⟩).2 (by simp) (by simp)).1
  exact ⟨ha, hb, by simpa using hc⟩

/-- Claim C10 : for bundles with at least 3 onsets on each side the offset
returned by OnsetSync is `alignOnsets`, the winning candidate shift
`onsets2[j] - onsets1[i]` measured in raw samples — the cast of an integer
sample difference, never divided by the sample rate (the result does not
depend on `sampleRate` at all, unlike the other three algorithms, which all
divide their lag by `features1.sampleRate` before storing the offset). -/
theorem spec_C10 (features1 features2 : AudioFeatures)
    (h1 : 3 ≤ features1.onsets.length) (h2 : 3 ≤ features2.onsets.length) :
    (OnsetSync.synchronize features1 features2).offset =
      ((OnsetSync.alignOnsets features1.onsets features2.onsets : ℤ) : ℝ) ∧
    (∃ i j, i < min features1.onsets.length 5 ∧ j < min features2.onsets.length 5 ∧
      OnsetSync.alignOnsets features1.onsets features2.onsets =
        (features2.onsets.getD j 0 : ℤ) - (features1.onsets.getD i 0 : ℤ)) ∧
    (∀ sr : ℝ,
      (OnsetSync.synchronize { features1 with sampleRate := sr } features2).offset =
        (OnsetSync.synchronize features1 features2).offset) := by
  refine ⟨?_, ?_, ?_⟩
  · unfold OnsetSync.synchronize
    rw [if_neg (by omega)]
  · rw [OnsetSync.alignOnsets_eq_firstWinner features1.onsets features2.onsets
      (by omega) (by omega)]
    have hw := OnsetSync.firstWinner_spec (OnsetSync.matchScore features1.onsets features2.onsets)
      (OnsetSync.candidates features1.onsets features2.onsets)
      (OnsetSync.maxScore_candidates_pos features1.onsets features2.onsets (by omega) (by omega))
    obtain ⟨i, j, hi, hj, heq⟩ :=
      OnsetSync.candidates_mem_iff features1.onsets features2.onsets _ hw.1
    exact ⟨i, j, hi, hj, heq⟩
  · intro sr
    unfold OnsetSync.synchronize
    rfl

/-- Witness for `spec_C10` : bundles with exactly 3 onsets each. -/
theorem spec_C10_witness :
    (3 ≤ (⟨[], [], [], [], [0, 2000, 4000], 44100, 0⟩ : AudioFeatures).onsets.length) ∧
    (OnsetSync.synchronize ⟨[], [], [], [], [0, 2000, 4000], 44100, 0⟩
        ⟨[], [], [], [], [1000, 3000, 5000], 44100, 0⟩).offset =
      ((OnsetSync.alignOnsets [0, 2000, 4000] [1000, 3000, 5000] : ℤ) : ℝ) := by
  have h := spec_C10 ⟨[], [], [], [], [0, 2000, 4000], 44100, 0⟩
    ⟨[], [], [], [], [1000, 3000, 5000], 44100, 0⟩ (by simp) (by simp)
  exact ⟨by simp, h.1⟩

/-! ## Claim C4 : DTW slope band -/

namespace DTWSync

/-- Claim C4 as stated fails: the DTW table initializes its whole first
column (and first row) with finite cumulative costs, so cell (1,0) — which
the claimed band `j ∈ [i/2, 2i]` excludes, since `0 < 1/2` — holds the
finite cost 0 for two equal two-sample series instead of remaining at
infinity. -/
theorem spec_C4_cex :
    dtwM [0, 0] [0, 0] 1 0 = ((0 : ℝ) : WithTop ℝ) ∧ (0 : ℝ) < 1 / 2 := by
  constructor
  · simp [dtwM]
  · norm_num

/-- Claim C4, amended: with slope constraint 2.0, interior cells
(`i ≥ 1`, `j ≥ 1`) of the DTW cost matrix outside the band
`⌊i/2⌋ ≤ j ≤ 2i` keep their infinite initial cost; the first row and the
first column, however, are boundary-initialized with finite cumulative
costs regardless of the band. -/
theorem spec_C4 (f1 f2 : List ℝ) (i j : ℕ) :
    (1 ≤ i → 1 ≤ j → i < f1.length → j < f2.length →
      (j < i / 2 ∨ 2 * i < j) → dtwM f1 f2 i j = ⊤) ∧
    dtwM f1 f2 i 0 ≠ ⊤ ∧ dtwM f1 f2 0 j ≠ ⊤ := by
  refine ⟨?_, ?_, ?_⟩
  · intro hi hj hilen hjlen hband
    match i, hi, j, hj with
    | i' + 1, _, j' + 1, _ =>
      rw [dtwM]
      rw [if_neg]
      rintro ⟨hlo, hhi⟩
      rw [lt_min_iff] at hhi
      omega
  · clear j
    induction i with
    | zero => rw [dtwM]; exact WithTop.coe_ne_top
    | succ i ih =>
      rw [dtwM]
      exact WithTop.add_ne_top.mpr ⟨ih, WithTop.coe_ne_top⟩
  · clear i
    induction j with
    | zero => rw [dtwM]; exact WithTop.coe_ne_top
    | succ j ih =>
      rw [dtwM]
      exact WithTop.add_ne_top.mpr ⟨ih, WithTop.coe_ne_top⟩

/-- Witness for `spec_C4` : two six-sample series, interior cell (5,1)
outside the band (`1 < ⌊5/2⌋`) is infinite while cells (5,0) and (0,1) on
the boundary are finite. -/
theorem spec_C4_witness :
    (1 : ℕ) < 5 / 2 ∧
    dtwM (List.replicate 6 (0 : ℝ)) (List.replicate 6 (0 : ℝ)) 5 1 = ⊤ ∧
    dtwM (List.replicate 6 (0 : ℝ)) (List.replicate 6 (0 : ℝ)) 5 0 ≠ ⊤ := by
  have h := spec_C4 (List.replicate 6 (0 : ℝ)) (List.replicate 6 (0 : ℝ)) 5 1
  refine ⟨by norm_num, ?_, h.2.1⟩
  exact h.1 (by norm_num) (by norm_num)
    (by rw [List.length_replicate]; norm_num)
    (by rw [List.length_replicate]; norm_num)
    (Or.inl (by norm_num))

end DTWSync

/-! ## Transform lemmas (towards claims C6, C5 and C1) -/

namespace FFTProcessor

theorem cise_eq_exp (t : ℝ) : cise t = Complex.exp ((t : ℂ) * Complex.I) := by
  rw [Complex.exp_mul_I, ← Complex.ofReal_cos, ← Complex.ofReal_sin]
  exact Complex.mk_eq_add_mul_I (Real.cos t) (Real.sin t)

theorem cise_add (a b : ℝ) : cise (a + b) = cise a * cise b := by
  rw [cise_eq_exp, cise_eq_exp, cise_eq_exp, ← Complex.exp_add]
  congr 1
  push_cast
  ring

theorem cise_zero : cise 0 = 1 := by
  rw [cise_eq_exp]
  simp

theorem cise_star (t : ℝ) : star (cise t) = cise (-t) := by
  rw [cise_eq_exp, cise_eq_exp]
  have h : star (Complex.exp ((t : ℂ) * Complex.I)) =
      Complex.exp (star ((t : ℂ) * Complex.I)) := (Complex.exp_conj _).symm
  rw [h]
  congr 1
  simp [Complex.ext_iff]

theorem cise_int_mul (m : ℤ) : cise (2 * Real.pi * (m : ℝ)) = 1 := by
  rw [cise_eq_exp]
  have h := Complex.exp_int_mul_two_pi_mul_I m
  rw [← h]
  congr 1
  push_cast
  ring

theorem cise_nat_pow (t : ℝ) (k : ℕ) : cise t ^ k = cise (k * t) := by
  rw [cise_eq_exp, cise_eq_exp, ← Complex.exp_nat_mul]
  congr 1
  push_cast
  ring

/-- Geometric kernel of the DFT: summing the phasor at integer frequency
`d` over one period gives `N` when `N` divides `d` and 0 otherwise. -/
theorem cise_kernel (N : ℕ) (hN : 0 < N) (d : ℤ) :
    ∑ k ∈ Finset.range N, cise (2 * Real.pi * k * (d : ℝ) / N) =
      if (N : ℤ) ∣ d then (N : ℂ) else 0 := by
  have hNr : (N : ℝ) ≠ 0 := Nat.cast_ne_zero.mpr (by omega)
  have hterm : ∀ k ∈ Finset.range N, cise (2 * Real.pi * k * (d : ℝ) / N) =
      cise (2 * Real.pi * (d : ℝ) / N) ^ k := by
    intro k _
    rw [cise_nat_pow]
    congr 1
    field_simp
    ring
  rw [Finset.sum_congr rfl hterm]
  by_cases hdvd : (N : ℤ) ∣ d
  · obtain ⟨m, rfl⟩ := hdvd
    have hw : cise (2 * Real.pi * (((N : ℤ) * m : ℤ) : ℝ) / N) = 1 := by
      have harg : 2 * Real.pi * (((N : ℤ) * m : ℤ) : ℝ) / N = 2 * Real.pi * (m : ℝ) := by
        push_cast
        field_simp
        ring
      rw [harg, cise_int_mul m]
    rw [hw]
    simp
  · have hw1 : cise (2 * Real.pi * (d : ℝ) / N) ≠ 1 := by
      intro h1
      rw [cise_eq_exp] at h1
      obtain ⟨m, hm⟩ := Complex.exp_eq_one_iff.mp h1
      apply hdvd
      have him := congrArg Complex.im hm
      simp [Complex.ofReal_mul, Complex.mul_im] at him
      field_simp at him
      -- him : 2 * π * d = m * (2 * π) * N
      have h2 : (2 * Real.pi) * (d : ℝ) = (2 * Real.pi) * ((N : ℝ) * (m : ℝ)) := by
        linear_combination him
      have hd : (d : ℝ) = (N : ℝ) * (m : ℝ) := mul_left_cancel₀ (by positivity) h2
      exact ⟨m, by exact_mod_cast hd⟩
    have hwN : cise (2 * Real.pi * (d : ℝ) / N) ^ N = 1 := by
      rw [cise_nat_pow]
      have harg : (N : ℝ) * (2 * Real.pi * (d : ℝ) / N) = 2 * Real.pi * (d : ℝ) := by
        field_simp
      rw [harg, cise_int_mul d]
    rw [geom_sum_eq hw1, hwN]
    simp [hdvd]

end FFTProcessor

namespace FFTProcessor

theorem forward_length (N : ℕ) (x : List ℝ) : (forward N x).length = N / 2 + 1 := by
  unfold forward
  simp

theorem forward_getD (N : ℕ) (x : List ℝ) (k : ℕ) (hk : k < N / 2 + 1) :
    (forward N x).getD k 0 = fullSpectrum N x k := by
  unfold forward fullSpectrum
  rw [List.getD_eq_getElem _ _ (by simpa using hk)]
  simp

/-- Conjugate symmetry of the spectrum of a real block: bin `N - k` is the
conjugate of bin `k`. -/
theorem fullSpectrum_reflect (N : ℕ) (x : List ℝ) (k : ℕ) (hk : k ≤ N) :
    fullSpectrum N x (N - k) = star (fullSpectrum N x k) := by
  unfold fullSpectrum
  rw [star_sum]
  apply Finset.sum_congr rfl
  intro m _
  have hstar : star (((x.getD m 0 : ℝ) : ℂ) * cise (-(2 * Real.pi * k * m) / N)) =
      ((x.getD m 0 : ℝ) : ℂ) * cise (2 * Real.pi * k * m / N) := by
    rw [star_mul', cise_star]
    simp [Complex.conj_ofReal]
    left
    congr 1
    ring
  rw [hstar]
  by_cases hN : N = 0
  · subst hN
    simp at hk
    subst hk
    norm_num
  · have hNr : (N : ℝ) ≠ 0 := Nat.cast_ne_zero.mpr hN
    have hsplit : -(2 * Real.pi * ((N - k : ℕ) : ℝ) * m) / N =
        2 * Real.pi * ((-(m : ℤ) : ℤ) : ℝ) + 2 * Real.pi * k * m / N := by
      rw [Nat.cast_sub hk]
      push_cast
      field_simp
      ring
    rw [hsplit, cise_add, cise_int_mul (-(m : ℤ)), one_mul]

/-- Core DFT inversion identity: resumming the full spectrum against the
positive-frequency phasor returns `N` times the original sample. -/
theorem fullSpectrum_sum (N : ℕ) (hN : 0 < N) (x : List ℝ) (n : ℕ) (hn : n < N) :
    ∑ k ∈ Finset.range N, fullSpectrum N x k * cise (2 * Real.pi * k * n / N) =
      (N : ℂ) * ((x.getD n 0 : ℝ) : ℂ) := by
  have hNr : (N : ℝ) ≠ 0 := Nat.cast_ne_zero.mpr (by omega)
  unfold fullSpectrum
  have hterm : ∀ k ∈ Finset.range N,
      (∑ m ∈ Finset.range N, ((x.getD m 0 : ℝ) : ℂ) * cise (-(2 * Real.pi * k * m) / N)) *
        cise (2 * Real.pi * k * n / N) =
      ∑ m ∈ Finset.range N, ((x.getD m 0 : ℝ) : ℂ) *
        cise (2 * Real.pi * k * (((n : ℤ) - (m : ℤ) : ℤ) : ℝ) / N) := by
    intro k _
    rw [Finset.sum_mul]
    apply Finset.sum_congr rfl
    intro m _
    rw [mul_assoc, ← cise_add]
    congr 2
    push_cast
    field_simp
    ring
  rw [Finset.sum_congr rfl hterm, Finset.sum_comm]
  have hker : ∀ m ∈ Finset.range N,
      (∑ k ∈ Finset.range N, ((x.getD m 0 : ℝ) : ℂ) *
        cise (2 * Real.pi * k * (((n : ℤ) - (m : ℤ) : ℤ) : ℝ) / N)) =
      ((x.getD m 0 : ℝ) : ℂ) * (if (N : ℤ) ∣ ((n : ℤ) - (m : ℤ)) then (N : ℂ) else 0) := by
    intro m _
    rw [← Finset.mul_sum, cise_kernel N hN ((n : ℤ) - (m : ℤ))]
  rw [Finset.sum_congr rfl hker]
  rw [Finset.sum_eq_single n]
  · rw [if_pos (by simp), mul_comm]
  · intro m hm hne
    rw [if_neg, mul_zero]
    rintro ⟨c, hc⟩
    have hm' := Finset.mem_range.mp hm
    have hb1 : (n : ℤ) - (m : ℤ) < N := by omega
    have hb2 : -(N : ℤ) < (n : ℤ) - (m : ℤ) := by omega
    have hne' : (n : ℤ) - (m : ℤ) ≠ 0 := by omega
    rw [hc] at hb1 hb2 hne'
    have hN' : (1 : ℤ) ≤ N := by omega
    have hc1 : c < 1 := by nlinarith
    have hc2 : -1 < c := by nlinarith
    have hc0 : c = 0 := by omega
    rw [hc0, mul_zero] at hne'
    exact hne' rfl
  · intro hn'
    exact absurd (Finset.mem_range.mpr hn) hn'

end FFTProcessor

namespace FFTProcessor

theorem star_re (z : ℂ) : (star z).re = z.re := rfl

/-- Real part of the doubled half-spectrum reconstruction sum: for any
conjugate-symmetric full spectrum `G` over an even period, the bins above
`N/2` dropped by the half-spectrum contribute exactly the conjugate of the
doubled interior bins, so the real parts agree. -/
theorem halfSum_re (N : ℕ) (hpos : 0 < N) (heven : 2 ∣ N) (G : ℕ → ℂ)
    (hsym : ∀ k, 1 ≤ k → k ≤ N - 1 → G (N - k) = star (G k)) (n : ℕ) :
    (∑ k ∈ Finset.range (N / 2 + 1),
      (if k = 0 ∨ k = N / 2 then G k else 2 * G k) * cise (2 * Real.pi * k * n / N)).re =
    (∑ k ∈ Finset.range N, G k * cise (2 * Real.pi * k * n / N)).re := by
  obtain ⟨h, rfl⟩ := heven
  have h1 : 1 ≤ h := by omega
  have hhalf : 2 * h / 2 = h := by omega
  have hNr : (((2 * h : ℕ) : ℝ)) ≠ 0 := Nat.cast_ne_zero.mpr (by omega)
  set e : ℕ → ℂ := fun k : ℕ => cise (2 * Real.pi * k * n / ((2 * h : ℕ) : ℝ)) with he_def
  set f : ℕ → ℂ := fun k : ℕ => G k * e k with hf_def
  have hrefl : ∀ k, k ≤ 2 * h → e (2 * h - k) = star (e k) := by
    intro k hk
    rw [he_def]
    simp only
    rw [cise_star]
    have harg : 2 * Real.pi * ((2 * h - k : ℕ) : ℝ) * n / ((2 * h : ℕ) : ℝ) =
        2 * Real.pi * ((n : ℤ) : ℝ) + -(2 * Real.pi * k * n / ((2 * h : ℕ) : ℝ)) := by
      rw [Nat.cast_sub hk]
      push_cast
      field_simp
      ring
    rw [harg, cise_add, cise_int_mul (n : ℤ), one_mul]
  have hA : ∑ k ∈ Finset.range (h + 1),
      (if k = 0 ∨ k = h then G k else 2 * G k) * e k =
      f 0 + (2 * ∑ k ∈ Finset.Ico 1 h, f k) + f h := by
    rw [Finset.range_eq_Ico, Finset.sum_eq_sum_Ico_succ_bot (by omega),
      Finset.sum_Ico_succ_top (by omega)]
    have hg0 : (if (0 : ℕ) = 0 ∨ (0 : ℕ) = h then G 0 else 2 * G 0) * e 0 = f 0 := by
      rw [if_pos (Or.inl rfl)]
    have hgh : (if h = 0 ∨ h = h then G h else 2 * G h) * e h = f h := by
      rw [if_pos (Or.inr rfl)]
    have hmid : ∑ k ∈ Finset.Ico 1 h,
        (if k = 0 ∨ k = h then G k else 2 * G k) * e k =
        2 * ∑ k ∈ Finset.Ico 1 h, f k := by
      rw [Finset.mul_sum]
      apply Finset.sum_congr rfl
      intro k hk
      have hk' := Finset.mem_Ico.mp hk
      rw [if_neg (by omega), hf_def]
      ring
    rw [hg0, hgh, hmid]
    ring
  have hB : ∑ k ∈ Finset.range (2 * h), f k =
      f 0 + ((∑ k ∈ Finset.Ico 1 h, f k) + f h + ∑ k ∈ Finset.Ico (h + 1) (2 * h), f k) := by
    rw [Finset.range_eq_Ico, Finset.sum_eq_sum_Ico_succ_bot (by omega)]
    rw [← Finset.sum_Ico_consecutive f (show (1 : ℕ) ≤ h + 1 by omega)
      (show h + 1 ≤ 2 * h by omega)]
    rw [Finset.sum_Ico_succ_top (by omega)]
  have htail : ∑ k ∈ Finset.Ico (h + 1) (2 * h), f k =
      star (∑ k ∈ Finset.Ico 1 h, f k) := by
    rw [star_sum, Finset.sum_Ico_eq_sum_range, Finset.sum_Ico_eq_sum_range]
    have hlen : 2 * h - (h + 1) = h - 1 := by omega
    rw [hlen]
    rw [← Finset.sum_range_reflect]
    apply Finset.sum_congr rfl
    intro i hi
    have hi' := Finset.mem_range.mp hi
    have hidx : h + 1 + (h - 1 - 1 - i) = 2 * h - (1 + i) := by omega
    rw [hidx, hf_def]
    simp only
    rw [hsym (1 + i) (by omega) (by omega), hrefl (1 + i) (by omega), star_mul']
  rw [hhalf, hA, hB, htail, two_mul]
  simp only [Complex.add_re, star_re]
  ring

theorem inverse_length (N : ℕ) (X : List ℂ) : (inverse N X).length = N := by
  unfold inverse
  simp

/-- Claim C6 : the inverse transform applied to the forward transform of a
real block of the configured size reproduces the block exactly, with the
divide-by-`N` normalization at the inverse step; stated for the
power-of-two sizes used by callers (`N = 1` or `N` even — every `2^e`). -/
theorem spec_C6 (N : ℕ) (x : List ℝ) (hx : x.length = N)
    (hN : N = 1 ∨ (0 < N ∧ 2 ∣ N)) :
    inverse N (forward N x) = x := by
  have hpos : 0 < N := by
    rcases hN with h | h
    · omega
    · exact h.1
  apply List.ext_getElem
  · rw [inverse_length, hx]
  · intro n hn1 hn2
    have hnN : n < N := by rwa [inverse_length] at hn1
    unfold inverse
    simp only [List.getElem_map, List.getElem_range]
    have hforward : ∑ k ∈ Finset.range (N / 2 + 1),
        (if k = 0 ∨ k = N / 2 then (forward N x).getD k 0 else 2 * (forward N x).getD k 0) *
          cise (2 * Real.pi * k * n / N) =
        ∑ k ∈ Finset.range (N / 2 + 1),
        (if k = 0 ∨ k = N / 2 then fullSpectrum N x k else 2 * fullSpectrum N x k) *
          cise (2 * Real.pi * k * n / N) := by
      apply Finset.sum_congr rfl
      intro k hk
      rw [forward_getD N x k (Finset.mem_range.mp hk)]
    rw [hforward]
    have hxn : x.getD n 0 = x[n] := List.getD_eq_getElem x 0 hn2
    rcases hN with h1 | ⟨_, heven⟩
    · subst h1
      have hn0 : n = 0 := by omega
      subst hn0
      rw [← hxn]
      norm_num [Finset.sum_range_one, fullSpectrum, cise_zero]
    · rw [halfSum_re N hpos heven (fullSpectrum N x)
        (fun k hk1 hk2 => fullSpectrum_reflect N x k (by omega)) n]
      rw [fullSpectrum_sum N hpos x n hnN]
      rw [← hxn]
      have hNr : (N : ℝ) ≠ 0 := Nat.cast_ne_zero.mpr (by omega)
      have hre : ((N : ℂ) * ((x.getD n 0 : ℝ) : ℂ)).re = (N : ℝ) * x.getD n 0 := by
        simp [Complex.mul_re]
      rw [hre]
      field_simp

/-- Witness for `spec_C6` : the block `[1, 0]` at size `N = 2`. -/
theorem spec_C6_witness :
    ([(1 : ℝ), 0].length = 2) ∧ (0 < 2 ∧ 2 ∣ 2) ∧
    inverse 2 (forward 2 [(1 : ℝ), 0]) = [(1 : ℝ), 0] := by
  have hx : ([(1 : ℝ), 0].length = 2) := rfl
  have hN : (2 : ℕ) = 1 ∨ (0 < 2 ∧ 2 ∣ 2) := Or.inr ⟨by norm_num, by norm_num⟩
  exact ⟨hx, ⟨by norm_num, by norm_num⟩, spec_C6 2 [(1 : ℝ), 0] hx hN⟩

end FFTProcessor

/-! ## Claim C5 : zero-norm cross-correlation -/

theorem sumSq_nonneg (l : List ℝ) : 0 ≤ (l.map (fun v => v * v)).sum := by
  induction l with
  | nil => simp
  | cons x xs ih =>
    simp only [List.map_cons, List.sum_cons]
    nlinarith [mul_self_nonneg x]

theorem sumSq_zero (l : List ℝ) (h : (l.map (fun v => v * v)).sum = 0) :
    ∀ v ∈ l, v = 0 := by
  induction l with
  | nil => simp
  | cons x xs ih =>
    simp only [List.map_cons, List.sum_cons] at h
    have h1 := sumSq_nonneg xs
    have h2 := mul_self_nonneg x
    have hx : x * x = 0 := by linarith
    have hxs : (xs.map (fun v => v * v)).sum = 0 := by linarith
    intro v hv
    rcases List.mem_cons.mp hv with hv | hv
    · rw [hv]; exact mul_self_eq_zero.mp hx
    · exact ih hxs v hv

theorem getD_zero_of_forall (L : List ℝ) (h : ∀ v ∈ L, v = 0) (n : ℕ) :
    L.getD n 0 = 0 := by
  by_cases hn : n < L.length
  · rw [List.getD_eq_getElem L 0 hn]
    exact h _ (List.getElem_mem hn)
  · rw [List.getD_eq_default]
    omega

theorem padded_getD_zero (s : List ℝ) (m : ℕ) (h : ∀ v ∈ s, v = 0) (n : ℕ) :
    (s ++ List.replicate m (0 : ℝ)).getD n 0 = 0 := by
  apply getD_zero_of_forall
  intro v hv
  rcases List.mem_append.mp hv with hv | hv
  · exact h v hv
  · exact List.eq_of_mem_replicate hv

namespace FFTProcessor

theorem forward_getD_zero (N : ℕ) (x : List ℝ) (hx : ∀ n, x.getD n 0 = 0) (k : ℕ) :
    (forward N x).getD k 0 = 0 := by
  by_cases hk : k < (forward N x).length
  · rw [List.getD_eq_getElem _ _ hk]
    unfold forward
    simp only [List.getElem_map, List.getElem_range]
    apply Finset.sum_eq_zero
    intro m _
    rw [hx m]
    simp
  · rw [List.getD_eq_default]
    omega

theorem inverse_all_zero (N : ℕ) (X : List ℂ) (hX : ∀ k, X.getD k 0 = 0) :
    ∀ v ∈ inverse N X, v = 0 := by
  intro v hv
  unfold inverse at hv
  obtain ⟨n, _, rfl⟩ := List.mem_map.mp hv
  have hsum : (∑ k ∈ Finset.range (N / 2 + 1),
      (if k = 0 ∨ k = N / 2 then X.getD k 0 else 2 * X.getD k 0) *
        cise (2 * Real.pi * k * n / N)) = 0 := by
    apply Finset.sum_eq_zero
    intro k _
    rw [hX k]
    split_ifs <;> simp
  rw [hsum]
  simp

end FFTProcessor

namespace CrossCorrelationSync

/-- With a zero-norm signal on either side, every value of the computed
cross-correlation sequence is zero: the zero signal has a zero spectrum,
the conjugate product is then identically zero, and the inverse transform
of zero is zero (normalization is skipped since the norm test fails). -/
theorem computeNCC_all_zero (s1 s2 : List ℝ)
    (hzero : (s1.map (fun v => v * v)).sum = 0 ∨ (s2.map (fun v => v * v)).sum = 0) :
    ∀ v ∈ computeNormalizedCrossCorrelation s1 s2, v = 0 := by
  intro v hv
  unfold computeNormalizedCrossCorrelation at hv
  simp only at hv
  rw [if_neg] at hv
  · have hres := List.mem_of_mem_take hv
    apply FFTProcessor.inverse_all_zero _ _ _ _ hres
    intro k
    rcases hzero with h | h
    · have hs1 : ∀ w ∈ s1, w = 0 := sumSq_zero s1 h
      by_cases hk : k < (List.zipWith (fun a b => a * star b)
          (FFTProcessor.forward (nextPow2 (s1.length + s2.length - 1))
            (s1 ++ List.replicate (nextPow2 (s1.length + s2.length - 1) - s1.length) 0))
          (FFTProcessor.forward (nextPow2 (s1.length + s2.length - 1))
            (s2 ++ List.replicate (nextPow2 (s1.length + s2.length - 1) - s2.length) 0))).length
      · rw [List.getD_eq_getElem _ _ hk]
        rw [List.getElem_zipWith]
        have hf : (FFTProcessor.forward (nextPow2 (s1.length + s2.length - 1))
            (s1 ++ List.replicate (nextPow2 (s1.length + s2.length - 1) - s1.length) 0)).getD k 0 = 0 :=
          FFTProcessor.forward_getD_zero _ _ (padded_getD_zero s1 _ hs1) k
        have hkf : k < (FFTProcessor.forward (nextPow2 (s1.length + s2.length - 1))
            (s1 ++ List.replicate (nextPow2 (s1.length + s2.length - 1) - s1.length) 0)).length := by
          rw [List.length_zipWith] at hk
          omega
        rw [List.getD_eq_getElem _ _ hkf] at hf
        rw [hf, zero_mul]
      · rw [List.getD_eq_default]
        omega
    · have hs2 : ∀ w ∈ s2, w = 0 := sumSq_zero s2 h
      by_cases hk : k < (List.zipWith (fun a b => a * star b)
          (FFTProcessor.forward (nextPow2 (s1.length + s2.length - 1))
            (s1 ++ List.replicate (nextPow2 (s1.length + s2.length - 1) - s1.length) 0))
          (FFTProcessor.forward (nextPow2 (s1.length + s2.length - 1))
            (s2 ++ List.replicate (nextPow2 (s1.length + s2.length - 1) - s2.length) 0))).length
      · rw [List.getD_eq_getElem _ _ hk]
        rw [List.getElem_zipWith]
        have hf : (FFTProcessor.forward (nextPow2 (s1.length + s2.length - 1))
            (s2 ++ List.replicate (nextPow2 (s1.length + s2.length - 1) - s2.length) 0)).getD k 0 = 0 :=
          FFTProcessor.forward_getD_zero _ _ (padded_getD_zero s2 _ hs2) k
        have hkf : k < (FFTProcessor.forward (nextPow2 (s1.length + s2.length - 1))
            (s2 ++ List.replicate (nextPow2 (s1.length + s2.length - 1) - s2.length) 0)).length := by
          rw [List.length_zipWith] at hk
          omega
        rw [List.getD_eq_getElem _ _ hkf] at hf
        rw [hf, star_zero, mul_zero]
      · rw [List.getD_eq_default]
        omega
  · rintro ⟨h1, h2⟩
    rcases hzero with h | h
    · rw [h, Real.sqrt_zero] at h1
      exact lt_irrefl 0 h1
    · rw [h, Real.sqrt_zero] at h2
      exact lt_irrefl 0 h2

end CrossCorrelationSync

/-- Claim C5 : for non-empty energy series with at least one zero-L2-norm
signal, CrossCorrelationSync returns confidence 0 — the zero signal makes
every correlation value 0, the peak value is 0, and the parabolic bonus
cannot raise `min(1, 0) = 0`. -/
theorem spec_C5 (features1 features2 : AudioFeatures)
    (hne1 : features1.energy ≠ []) (hne2 : features2.energy ≠ [])
    (hzero : (features1.energy.map (fun v => v * v)).sum = 0 ∨
             (features2.energy.map (fun v => v * v)).sum = 0) :
    (CrossCorrelationSync.synchronize features1 features2).confidence = 0 := by
  have hall := CrossCorrelationSync.computeNCC_all_zero features1.energy features2.energy hzero
  have hmax : maxVal (CrossCorrelationSync.computeNormalizedCrossCorrelation
      features1.energy features2.energy) = 0 := by
    by_cases hc : CrossCorrelationSync.computeNormalizedCrossCorrelation
        features1.energy features2.energy = []
    · rw [hc]; rfl
    · exact hall _ (maxVal_mem _ hc)
  unfold CrossCorrelationSync.synchronize
  rw [if_neg (by
    rintro (h | h)
    · exact hne1 h
    · exact hne2 h)]
  simp only
  split_ifs <;> simp [hmax]

/-- Witness for `spec_C5` : energy series `[0]` (zero norm) against `[1]`. -/
theorem spec_C5_witness :
    ((⟨[], [], [0], [], [], 44100, 0⟩ : AudioFeatures).energy ≠ []) ∧
    (((⟨[], [], [0], [], [], 44100, 0⟩ : AudioFeatures).energy.map
      (fun v => v * v)).sum = 0) ∧
    (CrossCorrelationSync.synchronize ⟨[], [], [0], [], [], 44100, 0⟩
      ⟨[], [], [1], [], [], 44100, 0⟩).confidence = 0 := by
  have hne1 : ((⟨[], [], [0], [], [], 44100, 0⟩ : AudioFeatures).energy ≠ []) := by
    simp
  have hz : (((⟨[], [], [0], [], [], 44100, 0⟩ : AudioFeatures).energy.map
      (fun v => v * v)).sum = 0) := by
    norm_num
  exact ⟨hne1, hz, spec_C5 ⟨[], [], [0], [], [], 44100, 0⟩ ⟨[], [], [1], [], [], 44100, 0⟩
    hne1 (by simp) (Or.inl hz)⟩

/-! ## Claim C2 : final confidence bounds -/

namespace HybridAudioSync

theorem weightFor_nonneg (content : AudioContent) (i : ℕ) : 0 ≤ weightFor content i := by
  cases content <;> unfold weightFor <;> split_ifs <;> norm_num

theorem hybridWeights_nonneg (content : AudioContent) :
    ∀ w ∈ hybridWeights content, 0 ≤ w := by
  intro w hw
  unfold hybridWeights at hw
  simp only [List.mem_cons, List.not_mem_nil, or_false] at hw
  rcases hw with h | h | h | h <;> (rw [h]; exact weightFor_nonneg _ _)

/-- The fused confidence is non-negative whenever the table weights are:
the accumulated numerator is a sum of `w * c²` terms, and division only
happens for a strictly positive accumulated denominator. -/
theorem combineResults_conf_nonneg (results : List SyncResult) (weights : List ℝ)
    (hw : ∀ w ∈ weights, 0 ≤ w) :
    0 ≤ (combineResults results weights).confidence := by
  unfold combineResults
  by_cases h1 : results = [] ∨ weights = []
  · rw [if_pos h1]
    norm_num [SyncResult.default]
  · rw [if_neg h1]
    simp only
    by_cases h2 : 0 < (List.map (fun p : SyncResult × ℝ => p.2 * p.1.confidence)
        (results.zip weights)).sum
    · rw [if_pos h2]
      apply div_nonneg
      · apply List.sum_nonneg
        intro x hx
        obtain ⟨p, hp, rfl⟩ := List.mem_map.mp hx
        have hpw : 0 ≤ p.2 := hw p.2 (List.of_mem_zip hp).2
        nlinarith [mul_self_nonneg p.1.confidence]
      · exact le_of_lt h2
    · rw [if_neg h2]
      norm_num [SyncResult.default]

theorem computeConfidenceScore_bounds (result : SyncResult)
    (features1 features2 : AudioFeatures) (h : 0 ≤ result.confidence) :
    0 ≤ computeConfidenceScore result features1 features2 ∧
    computeConfidenceScore result features1 features2 ≤ 1 := by
  unfold computeConfidenceScore
  simp only
  constructor
  · apply le_min (by norm_num)
    split_ifs <;> nlinarith
  · exact min_le_left _ _

/-- Claim C2 : for every pair of decoded buffers, the confidence returned
by `findOptimalSync` lies in `[0, 1]` after the final recomputation: the
fused confidence entering it is non-negative (sum of `weight * conf²` over
a positive total, or the 0 default), the three boost/penalty factors are
positive, and the final clamp `min(1, ·)` gives the upper bound. -/
theorem spec_C2 (samples1 samples2 : List ℝ) :
    0 ≤ (findOptimalSync samples1 samples2).confidence ∧
    (findOptimalSync samples1 samples2).confidence ≤ 1 := by
  unfold findOptimalSync
  simp only
  split_ifs with h
  · norm_num [SyncResult.default]
  · apply computeConfidenceScore_bounds
    apply combineResults_conf_nonneg
    apply hybridWeights_nonneg

end HybridAudioSync

/-! ## Claim C1 : weighted fusion formula.

The fusion claim needs `Σ(tableWeight·confidence) == 0` and
`Σ(tableWeight·confidence) ≠ 0` to be the only two cases, while the source
tests `totalWeight > 0.0f`; the two agree because in every run each of the
four algorithm confidences is non-negative, which the next lemmas
establish (for the cross-correlation this rests on the correlation of
non-negative energy envelopes being non-negative, via the kernel
expansion of the transform). -/

theorem getD_nonneg_of_forall (L : List ℝ) (h : ∀ v ∈ L, 0 ≤ v) (n : ℕ) :
    0 ≤ L.getD n 0 := by
  by_cases hn : n < L.length
  · rw [List.getD_eq_getElem L 0 hn]
    exact h _ (List.getElem_mem hn)
  · rw [List.getD_eq_default]
    omega

theorem padded_getD_nonneg (s : List ℝ) (m : ℕ) (h : ∀ v ∈ s, 0 ≤ v) (n : ℕ) :
    0 ≤ (s ++ List.replicate m (0 : ℝ)).getD n 0 := by
  apply getD_nonneg_of_forall
  intro v hv
  rcases List.mem_append.mp hv with hv | hv
  · exact h v hv
  · rw [List.eq_of_mem_replicate hv]

namespace OnsetSync

theorem onset_conf_nonneg (features1 features2 : AudioFeatures) :
    0 ≤ (synchronize features1 features2).confidence := by
  unfold synchronize
  simp only
  split_ifs
  · norm_num [SyncResult.default]
  · apply le_min (by norm_num)
    positivity

end OnsetSync

namespace SpectralCorrelationSync

theorem spectral_conf_nonneg (features1 features2 : AudioFeatures) :
    0 ≤ (synchronize features1 features2).confidence := by
  unfold synchronize
  simp only
  split_ifs
  · norm_num [SyncResult.default]
  · exact le_max_left 0 _

end SpectralCorrelationSync

namespace DTWSync

theorem scaleUpdate_conf_mono (features1 features2 : AudioFeatures)
    (st : ℝ × ℝ) (scale : ℕ) :
    st.2 ≤ (scaleUpdate features1 features2 st scale).2 := by
  unfold scaleUpdate
  simp only
  split_ifs
  · exact le_refl _
  · exact le_refl _
  · exact le_max_left _ _

theorem foldl_scaleUpdate_conf (features1 features2 : AudioFeatures)
    (scales : List ℕ) (st : ℝ × ℝ) :
    st.2 ≤ (scales.foldl (scaleUpdate features1 features2) st).2 := by
  induction scales generalizing st with
  | nil => exact le_refl _
  | cons s ss ih =>
    exact le_trans (scaleUpdate_conf_mono features1 features2 st s) (ih _)

theorem dtw_conf_nonneg (features1 features2 : AudioFeatures) :
    0 ≤ (synchronize features1 features2).confidence := by
  unfold synchronize multiScaleDTW
  simp only
  exact le_trans (le_refl 0) (foldl_scaleUpdate_conf features1 features2 [8, 4, 2, 1] (0, 0))

end DTWSync

namespace FFTProcessor

theorem star_fullSpectrum (N : ℕ) (b : List ℝ) (k : ℕ) :
    star (fullSpectrum N b k) =
      ∑ q ∈ Finset.range N, ((b.getD q 0 : ℝ) : ℂ) * cise (2 * Real.pi * k * q / N) := by
  unfold fullSpectrum
  rw [star_sum]
  apply Finset.sum_congr rfl
  intro q _
  rw [star_mul', cise_star]
  simp [Complex.conj_ofReal]
  left
  congr 1
  ring

theorem crossSpectrum_getD (N : ℕ) (a b : List ℝ) (k : ℕ) (hk : k < N / 2 + 1) :
    (List.zipWith (fun p q => p * star q) (forward N a) (forward N b)).getD k 0 =
      fullSpectrum N a k * star (fullSpectrum N b k) := by
  have hka : k < (forward N a).length := by rw [forward_length]; exact hk
  have hkb : k < (forward N b).length := by rw [forward_length]; exact hk
  have hlen : k < (List.zipWith (fun p q : ℂ => p * star q)
      (forward N a) (forward N b)).length := by
    rw [List.length_zipWith, forward_length, forward_length]
    omega
  rw [List.getD_eq_getElem _ _ hlen, List.getElem_zipWith]
  rw [← List.getD_eq_getElem (forward N a) 0 hka, ← List.getD_eq_getElem (forward N b) 0 hkb]
  rw [forward_getD N a k hk, forward_getD N b k hk]

/-- Values of the inverse transform of the conjugate cross-spectrum of two
non-negative real blocks are non-negative: expanding both spectra and
resumming over the frequency index turns each entry into a sum of
`a_p * b_q * kernel` terms with the kernel in `{N, 0}`. -/
theorem inverse_cross_nonneg (N : ℕ) (hN : N = 1 ∨ (0 < N ∧ 2 ∣ N)) (a b : List ℝ)
    (ha : ∀ n, 0 ≤ a.getD n 0) (hb : ∀ n, 0 ≤ b.getD n 0) :
    ∀ v ∈ inverse N
      (List.zipWith (fun p q => p * star q) (forward N a) (forward N b)), 0 ≤ v := by
  have hpos : 0 < N := by
    rcases hN with h | h
    · omega
    · exact h.1
  have hNr : (N : ℝ) ≠ 0 := Nat.cast_ne_zero.mpr (by omega)
  intro v hv
  unfold inverse at hv
  obtain ⟨n, hn, rfl⟩ := List.mem_map.mp hv
  set G : ℕ → ℂ := fun k => fullSpectrum N a k * star (fullSpectrum N b k) with hG_def
  have hgetD : ∑ k ∈ Finset.range (N / 2 + 1),
      (if k = 0 ∨ k = N / 2 then
        (List.zipWith (fun p q => p * star q) (forward N a) (forward N b)).getD k 0
      else 2 * (List.zipWith (fun p q => p * star q) (forward N a) (forward N b)).getD k 0) *
        cise (2 * Real.pi * k * n / N) =
      ∑ k ∈ Finset.range (N / 2 + 1),
      (if k = 0 ∨ k = N / 2 then G k else 2 * G k) * cise (2 * Real.pi * k * n / N) := by
    apply Finset.sum_congr rfl
    intro k hk
    rw [crossSpectrum_getD N a b k (Finset.mem_range.mp hk)]
  rw [hgetD]
  have hsym : ∀ k, 1 ≤ k → k ≤ N - 1 → G (N - k) = star (G k) := by
    intro k hk1 hk2
    rw [hG_def]
    simp only
    rw [fullSpectrum_reflect N a k (by omega), fullSpectrum_reflect N b k (by omega)]
    simp [star_mul', star_star]
  have hhalf : (∑ k ∈ Finset.range (N / 2 + 1),
      (if k = 0 ∨ k = N / 2 then G k else 2 * G k) * cise (2 * Real.pi * k * n / N)).re =
      (∑ k ∈ Finset.range N, G k * cise (2 * Real.pi * k * n / N)).re := by
    rcases hN with h1 | ⟨_, heven⟩
    · subst h1
      norm_num
    · exact halfSum_re N hpos heven G hsym n
  rw [hhalf]
  apply div_nonneg _ (by positivity)
  have hexpand : ∀ k ∈ Finset.range N, G k * cise (2 * Real.pi * k * n / N) =
      ∑ p ∈ Finset.range N, ∑ q ∈ Finset.range N,
        ((a.getD p 0 * b.getD q 0 : ℝ) : ℂ) *
          cise (2 * Real.pi * k * ((((n : ℤ) + q - p : ℤ)) : ℝ) / N) := by
    intro k _
    rw [hG_def]
    simp only
    rw [star_fullSpectrum]
    unfold fullSpectrum
    rw [Finset.sum_mul_sum, Finset.sum_mul]
    apply Finset.sum_congr rfl
    intro p _
    rw [Finset.sum_mul]
    apply Finset.sum_congr rfl
    intro q _
    have hc : cise (-(2 * Real.pi * k * p) / N) *
        (cise (2 * Real.pi * k * q / N) * cise (2 * Real.pi * k * n / N)) =
        cise (2 * Real.pi * k * ((((n : ℤ) + q - p : ℤ)) : ℝ) / N) := by
      rw [← cise_add, ← cise_add]
      congr 1
      push_cast
      field_simp
      ring
    rw [← hc]
    push_cast
    ring
  rw [Finset.sum_congr rfl hexpand]
  rw [Finset.sum_comm]
  have hker : ∀ p ∈ Finset.range N,
      (∑ k ∈ Finset.range N, ∑ q ∈ Finset.range N,
        ((a.getD p 0 * b.getD q 0 : ℝ) : ℂ) *
          cise (2 * Real.pi * k * ((((n : ℤ) + q - p : ℤ)) : ℝ) / N)) =
      ∑ q ∈ Finset.range N, ((a.getD p 0 * b.getD q 0 : ℝ) : ℂ) *
        (if (N : ℤ) ∣ ((n : ℤ) + q - p) then (N : ℂ) else 0) := by
    intro p _
    rw [Finset.sum_comm]
    apply Finset.sum_congr rfl
    intro q _
    rw [← Finset.mul_sum, cise_kernel N hpos ((n : ℤ) + q - p)]
  rw [Finset.sum_congr rfl hker]
  rw [Complex.re_sum]
  apply Finset.sum_nonneg
  intro p _
  rw [Complex.re_sum]
  apply Finset.sum_nonneg
  intro q _
  have hapq : 0 ≤ a.getD p 0 * b.getD q 0 := mul_nonneg (ha p) (hb q)
  split_ifs
  · rw [← Complex.ofReal_natCast, ← Complex.ofReal_mul]
    rw [Complex.ofReal_re]
    positivity
  · rw [mul_zero]
    norm_num

end FFTProcessor

theorem nextPow2_one_or_even (n : ℕ) :
    nextPow2 n = 1 ∨ (0 < nextPow2 n ∧ 2 ∣ nextPow2 n) := by
  unfold nextPow2
  rcases Nat.eq_zero_or_pos (Nat.clog 2 n) with h | h
  · left
    rw [h, pow_zero]
  · right
    exact ⟨pow_pos (by norm_num) _, dvd_pow_self 2 (by omega)⟩

theorem le_nextPow2 (n : ℕ) : n ≤ nextPow2 n :=
  Nat.le_pow_clog (by norm_num) n

namespace CrossCorrelationSync

theorem computeNCC_entries_nonneg (s1 s2 : List ℝ)
    (h1 : ∀ v ∈ s1, 0 ≤ v) (h2 : ∀ v ∈ s2, 0 ≤ v) :
    ∀ v ∈ computeNormalizedCrossCorrelation s1 s2, 0 ≤ v := by
  intro v hv
  unfold computeNormalizedCrossCorrelation at hv
  simp only at hv
  have hinv := FFTProcessor.inverse_cross_nonneg (nextPow2 (s1.length + s2.length - 1))
    (nextPow2_one_or_even _)
    (s1 ++ List.replicate (nextPow2 (s1.length + s2.length - 1) - s1.length) 0)
    (s2 ++ List.replicate (nextPow2 (s1.length + s2.length - 1) - s2.length) 0)
    (padded_getD_nonneg s1 _ h1) (padded_getD_nonneg s2 _ h2)
  split_ifs at hv with hnorm
  · obtain ⟨w, hw, rfl⟩ := List.mem_map.mp hv
    have hw0 := hinv w (List.mem_of_mem_take hw)
    have hn1 : (0 : ℝ) ≤ Real.sqrt ((s1.map (fun v => v * v)).sum) := Real.sqrt_nonneg _
    have hn2 : (0 : ℝ) ≤ Real.sqrt ((s2.map (fun v => v * v)).sum) := Real.sqrt_nonneg _
    exact div_nonneg hw0 (mul_nonneg hn1 hn2)
  · exact hinv v (List.mem_of_mem_take hv)

theorem computeNCC_ne_nil (s1 s2 : List ℝ) (h1 : s1 ≠ []) (h2 : s2 ≠ []) :
    computeNormalizedCrossCorrelation s1 s2 ≠ [] := by
  have hl1 : 0 < s1.length := List.length_pos.mpr h1
  have hl2 : 0 < s2.length := List.length_pos.mpr h2
  have hrs : 1 ≤ s1.length + s2.length - 1 := by omega
  have hfft := le_nextPow2 (s1.length + s2.length - 1)
  rw [← List.length_pos]
  unfold computeNormalizedCrossCorrelation
  simp only
  split_ifs
  · rw [List.length_map, List.length_take, FFTProcessor.inverse_length]
    omega
  · rw [List.length_take, FFTProcessor.inverse_length]
    omega

theorem crossCorr_conf_nonneg (features1 features2 : AudioFeatures)
    (h1 : ∀ v ∈ features1.energy, 0 ≤ v) (h2 : ∀ v ∈ features2.energy, 0 ≤ v) :
    0 ≤ (synchronize features1 features2).confidence := by
  unfold synchronize
  simp only
  by_cases hemp : features1.energy = [] ∨ features2.energy = []
  · rw [if_pos hemp]
    norm_num [SyncResult.default]
  · rw [if_neg hemp]
    push_neg at hemp
    have hmax : 0 ≤ maxVal (computeNormalizedCrossCorrelation
        features1.energy features2.energy) :=
      maxVal_nonneg _ (computeNCC_ne_nil _ _ hemp.1 hemp.2)
        (computeNCC_entries_nonneg _ _ h1 h2)
    have hbase : 0 ≤ min 1 (maxVal (computeNormalizedCrossCorrelation
        features1.energy features2.energy)) := le_min (by norm_num) hmax
    split_ifs
    · nlinarith
    · exact hbase
    · exact hbase

end CrossCorrelationSync

namespace HybridAudioSync

theorem energySeries_nonneg (samples : List ℝ) :
    ∀ v ∈ energySeries samples, 0 ≤ v := by
  intro v hv
  unfold energySeries at hv
  obtain ⟨c, _, rfl⟩ := List.mem_map.mp hv
  exact Real.sqrt_nonneg _

theorem extractFeatures_energy_nonneg (samples : List ℝ) (sampleRate : ℝ) :
    ∀ v ∈ (extractFeatures samples sampleRate).energy, 0 ≤ v := by
  unfold extractFeatures
  split_ifs
  · intro v hv
    simp [AudioFeatures.empty] at hv
  · exact energySeries_nonneg samples

end HybridAudioSync

namespace HybridAudioSync

/-- `combineResults` on exactly four results, with the accumulated sums
written out. -/
theorem combineResults_four (r0 r1 r2 r3 : SyncResult) (w0 w1 w2 w3 : ℝ) :
    combineResults [r0, r1, r2, r3] [w0, w1, w2, w3] =
      if 0 < w0 * r0.confidence + (w1 * r1.confidence +
          (w2 * r2.confidence + (w3 * r3.confidence + 0))) then
        { offset := (r0.offset * (w0 * r0.confidence) + (r1.offset * (w1 * r1.confidence) +
            (r2.offset * (w2 * r2.confidence) + (r3.offset * (w3 * r3.confidence) + 0)))) /
            (w0 * r0.confidence + (w1 * r1.confidence +
              (w2 * r2.confidence + (w3 * r3.confidence + 0))))
          confidence := (r0.confidence * (w0 * r0.confidence) +
            (r1.confidence * (w1 * r1.confidence) +
            (r2.confidence * (w2 * r2.confidence) +
            (r3.confidence * (w3 * r3.confidence) + 0)))) /
            (w0 * r0.confidence + (w1 * r1.confidence +
              (w2 * r2.confidence + (w3 * r3.confidence + 0))))
          algorithm := "Hybrid" }
      else { SyncResult.default with algorithm := "Hybrid" } := by
  unfold combineResults
  rw [if_neg (by simp)]
  rfl

end HybridAudioSync

/-- Claim C1 : for every run of the orchestrator in which extraction
succeeds for both sources, with `[r0, r1, r2, r3]` the four algorithm
results and `[w0, w1, w2, w3]` the table weights for the detected content:
when `Σ(wᵢ·confᵢ) = 0` the fused offset and confidence default to 0 (before
negation, which then also returns offset 0); when `Σ(wᵢ·confᵢ) ≠ 0` the
returned offset is the negation of the weighted average
`Σ(offsetᵢ·wᵢ·confᵢ) / Σ(wᵢ·confᵢ)` and the fused confidence (before the
final recomputation) is the same weighted average of the confidences.  The
source tests `totalWeight > 0`; the two cases are exhaustive because every
algorithm confidence is non-negative and so is every table weight. -/
theorem spec_C1 (samples1 samples2 : List ℝ)
    (hf1 : (HybridAudioSync.extractFeatures samples1 44100).frameCount ≠ 0)
    (hf2 : (HybridAudioSync.extractFeatures samples2 44100).frameCount ≠ 0)
    (r0 r1 r2 r3 : SyncResult) (w0 w1 w2 w3 : ℝ)
    (hres : HybridAudioSync.hybridResults (HybridAudioSync.extractFeatures samples1 44100)
      (HybridAudioSync.extractFeatures samples2 44100) = [r0, r1, r2, r3])
    (hw : HybridAudioSync.hybridWeights (HybridAudioSync.detectContentType
      (HybridAudioSync.extractFeatures samples1 44100)) = [w0, w1, w2, w3]) :
    (w0 * r0.confidence + w1 * r1.confidence + w2 * r2.confidence + w3 * r3.confidence = 0 →
      (HybridAudioSync.combineResults [r0, r1, r2, r3] [w0, w1, w2, w3]).offset = 0 ∧
      (HybridAudioSync.combineResults [r0, r1, r2, r3] [w0, w1, w2, w3]).confidence = 0 ∧
      (HybridAudioSync.findOptimalSync samples1 samples2).offset = 0) ∧
    (w0 * r0.confidence + w1 * r1.confidence + w2 * r2.confidence + w3 * r3.confidence ≠ 0 →
      (HybridAudioSync.findOptimalSync samples1 samples2).offset =
        -((r0.offset * (w0 * r0.confidence) + r1.offset * (w1 * r1.confidence) +
            r2.offset * (w2 * r2.confidence) + r3.offset * (w3 * r3.confidence)) /
          (w0 * r0.confidence + w1 * r1.confidence +
            w2 * r2.confidence + w3 * r3.confidence)) ∧
      (HybridAudioSync.combineResults [r0, r1, r2, r3] [w0, w1, w2, w3]).confidence =
        (r0.confidence * (w0 * r0.confidence) + r1.confidence * (w1 * r1.confidence) +
          r2.confidence * (w2 * r2.confidence) + r3.confidence * (w3 * r3.confidence)) /
        (w0 * r0.confidence + w1 * r1.confidence +
          w2 * r2.confidence + w3 * r3.confidence)) := by
  -- identify the four results and weights
  unfold HybridAudioSync.hybridResults at hres
  simp only [List.cons.injEq, and_true] at hres
  obtain ⟨ha, hb, hc, hd⟩ := hres
  unfold HybridAudioSync.hybridWeights at hw
  simp only [List.cons.injEq, and_true] at hw
  obtain ⟨hwa, hwb, hwc, hwd⟩ := hw
  -- non-negativity of the four confidences and weights
  have hc0 : 0 ≤ r0.confidence := by
    rw [← ha]
    exact CrossCorrelationSync.crossCorr_conf_nonneg _ _
      (HybridAudioSync.extractFeatures_energy_nonneg samples1 44100)
      (HybridAudioSync.extractFeatures_energy_nonneg samples2 44100)
  have hc1 : 0 ≤ r1.confidence := by
    rw [← hb]
    exact DTWSync.dtw_conf_nonneg _ _
  have hc2 : 0 ≤ r2.confidence := by
    rw [← hc]
    exact OnsetSync.onset_conf_nonneg _ _
  have hc3 : 0 ≤ r3.confidence := by
    rw [← hd]
    exact SpectralCorrelationSync.spectral_conf_nonneg _ _
  have hw0 : 0 ≤ w0 := by rw [← hwa]; exact HybridAudioSync.weightFor_nonneg _ _
  have hw1 : 0 ≤ w1 := by rw [← hwb]; exact HybridAudioSync.weightFor_nonneg _ _
  have hw2 : 0 ≤ w2 := by rw [← hwc]; exact HybridAudioSync.weightFor_nonneg _ _
  have hw3 : 0 ≤ w3 := by rw [← hwd]; exact HybridAudioSync.weightFor_nonneg _ _
  have hWnn : 0 ≤ w0 * r0.confidence + w1 * r1.confidence +
      w2 * r2.confidence + w3 * r3.confidence := by
    have := mul_nonneg hw0 hc0
    have := mul_nonneg hw1 hc1
    have := mul_nonneg hw2 hc2
    have := mul_nonneg hw3 hc3
    linarith
  -- findOptimalSync takes its main branch and negates the fused offset
  have hfinal : (HybridAudioSync.findOptimalSync samples1 samples2).offset =
      -(HybridAudioSync.combineResults [r0, r1, r2, r3] [w0, w1, w2, w3]).offset := by
    unfold HybridAudioSync.findOptimalSync
    simp only
    rw [if_neg (by
      rintro (h | h)
      · exact hf1 h
      · exact hf2 h)]
    show -(HybridAudioSync.combineResults (HybridAudioSync.hybridResults _ _)
      (HybridAudioSync.hybridWeights _)).offset = _
    rw [show HybridAudioSync.hybridResults (HybridAudioSync.extractFeatures samples1 44100)
        (HybridAudioSync.extractFeatures samples2 44100) = [r0, r1, r2, r3] from by
      unfold HybridAudioSync.hybridResults
      rw [ha, hb, hc, hd]]
    rw [show HybridAudioSync.hybridWeights (HybridAudioSync.detectContentType
        (HybridAudioSync.extractFeatures samples1 44100)) = [w0, w1, w2, w3] from by
      unfold HybridAudioSync.hybridWeights
      rw [hwa, hwb, hwc, hwd]]
  constructor
  · intro hW0
    have hnotpos : ¬ (0 < w0 * r0.confidence + (w1 * r1.confidence +
        (w2 * r2.confidence + (w3 * r3.confidence + 0)))) := by
      intro hpos
      have : w0 * r0.confidence + (w1 * r1.confidence +
          (w2 * r2.confidence + (w3 * r3.confidence + 0))) = 0 := by linarith
      linarith
    rw [hfinal, HybridAudioSync.combineResults_four, if_neg hnotpos]
    refine ⟨rfl, rfl, ?_⟩
    show -(SyncResult.default.offset) = 0
    norm_num [SyncResult.default]
  · intro hWne
    have hW' : w0 * r0.confidence + (w1 * r1.confidence +
        (w2 * r2.confidence + (w3 * r3.confidence + 0))) =
        w0 * r0.confidence + w1 * r1.confidence + w2 * r2.confidence + w3 * r3.confidence := by
      ring
    have hpos : 0 < w0 * r0.confidence + (w1 * r1.confidence +
        (w2 * r2.confidence + (w3 * r3.confidence + 0))) := by
      rw [hW']
      exact lt_of_le_of_ne hWnn (fun h => hWne h.symm)
    rw [hfinal, HybridAudioSync.combineResults_four, if_pos hpos]
    constructor
    · show -(_ / _) = _
      congr 1
      rw [div_eq_div_iff (by linarith) (by
        intro hzero
        exact hWne (by linarith))]
      ring
    · show _ / _ = _
      rw [div_eq_div_iff (by linarith) (by
        intro hzero
        exact hWne (by linarith))]
      ring

/-- Witness for `spec_C1` : two copies of a 512-sample zero buffer
(extraction succeeds with one frame), with the four algorithm results and
the detected content's table weights themselves as the list entries. -/
theorem spec_C1_witness :
    (HybridAudioSync.extractFeatures (List.replicate 512 (0 : ℝ)) 44100).frameCount ≠ 0 ∧
    (let f1 := HybridAudioSync.extractFeatures (List.replicate 512 (0 : ℝ)) 44100
     let r0 := CrossCorrelationSync.synchronize f1 f1
     let r1 := DTWSync.synchronize f1 f1
     let r2 := OnsetSync.synchronize f1 f1
     let r3 := SpectralCorrelationSync.synchronize f1 f1
     let w0 := HybridAudioSync.weightFor (HybridAudioSync.detectContentType f1) 0
     let w1 := HybridAudioSync.weightFor (HybridAudioSync.detectContentType f1) 1
     let w2 := HybridAudioSync.weightFor (HybridAudioSync.detectContentType f1) 2
     let w3 := HybridAudioSync.weightFor (HybridAudioSync.detectContentType f1) 3
     (w0 * r0.confidence + w1 * r1.confidence + w2 * r2.confidence + w3 * r3.confidence = 0 →
       (HybridAudioSync.combineResults [r0, r1, r2, r3] [w0, w1, w2, w3]).offset = 0 ∧
       (HybridAudioSync.combineResults [r0, r1, r2, r3] [w0, w1, w2, w3]).confidence = 0 ∧
       (HybridAudioSync.findOptimalSync (List.replicate 512 (0 : ℝ))
         (List.replicate 512 (0 : ℝ))).offset = 0) ∧
     (w0 * r0.confidence + w1 * r1.confidence + w2 * r2.confidence + w3 * r3.confidence ≠ 0 →
       (HybridAudioSync.findOptimalSync (List.replicate 512 (0 : ℝ))
           (List.replicate 512 (0 : ℝ))).offset =
         -((r0.offset * (w0 * r0.confidence) + r1.offset * (w1 * r1.confidence) +
             r2.offset * (w2 * r2.confidence) + r3.offset * (w3 * r3.confidence)) /
           (w0 * r0.confidence + w1 * r1.confidence +
             w2 * r2.confidence + w3 * r3.confidence)) ∧
       (HybridAudioSync.combineResults [r0, r1, r2, r3] [w0, w1, w2, w3]).confidence =
         (r0.confidence * (w0 * r0.confidence) + r1.confidence * (w1 * r1.confidence) +
           r2.confidence * (w2 * r2.confidence) + r3.confidence * (w3 * r3.confidence)) /
         (w0 * r0.confidence + w1 * r1.confidence +
           w2 * r2.confidence + w3 * r3.confidence))) := by
  have hf : (HybridAudioSync.extractFeatures (List.replicate 512 (0 : ℝ)) 44100).frameCount ≠ 0 := by
    unfold HybridAudioSync.extractFeatures
    rw [if_neg (HybridAudioSync.replicate_real_ne_nil 512 (by norm_num) 0)]
    show (List.replicate 512 (0 : ℝ)).length / 512 ≠ 0
    rw [List.length_replicate]
    norm_num
  exact ⟨hf, spec_C1 (List.replicate 512 (0 : ℝ)) (List.replicate 512 (0 : ℝ)) hf hf
    _ _ _ _ _ _ _ _ rfl rfl⟩
